import Mathlib

/-!
Verification of the synchronization pipeline of the ham-agent-2 repository
(db-build-scripts). Python functions from the population scripts are embedded
shallowly as Lean definitions; machine state (the relational tables) is
modelled as explicit lists of rows, and the SQL batch upsert
(INSERT ... ON CONFLICT ... DO UPDATE) as a fold of per-row upserts.
-/

set_option maxRecDepth 4000

namespace Sync

/-! ## Generic idempotent upsert (populate_employees.py 365-395, populate_products.py 204-242)

A table row: `key` is the conflict key (the primary key `id` for all scripts
except countries), `payload` collects every mutable non-timestamp column,
`createdAt` is written on insert and untouched on conflict, `updatedAt` is
written on insert and overwritten on conflict. -/

structure DbRow (π : Type) where
  key : String
  payload : π
  createdAt : Nat
  updatedAt : Nat
deriving Repr, DecidableEq

/-- The row update applied on a key conflict: overwrite the mutable columns
and `updatedAt` with the incoming values, keep the stored `createdAt`. -/
def conflictUpdate {π : Type} (r x : DbRow π) : DbRow π :=
  if x.key == r.key then
    { key := x.key, payload := r.payload, createdAt := x.createdAt, updatedAt := r.updatedAt }
  else x

/-- One row of `execute_values` with `ON CONFLICT (key) DO UPDATE`: if a row
with the same key exists, overwrite the mutable columns and `updatedAt`,
keeping `createdAt`; otherwise append the incoming row. -/
def upsertRow {π : Type} (t : List (DbRow π)) (r : DbRow π) : List (DbRow π) :=
  if t.any (fun x => x.key == r.key) then t.map (conflictUpdate r) else t ++ [r]

/-- The per-row effect of a successful batch statement: each row of the
batch upserts in turn. This is the meaning of the single
`INSERT ... ON CONFLICT` statement when its rows carry distinct conflict
keys. -/
def upsertBatch {π : Type} (t : List (DbRow π)) (rs : List (DbRow π)) : List (DbRow π) :=
  rs.foldl upsertRow t

/-- The whole batch write as the single `execute_values`
`INSERT ... ON CONFLICT DO UPDATE` statement: when two rows of one batch
conflict on the same key, PostgreSQL raises a cardinality violation
(`ON CONFLICT DO UPDATE command cannot affect row a second time`), the
transaction is rolled back and the error re-raised — modelled as `none`,
with the table unchanged; with distinct keys the statement succeeds and
each row upserts. -/
def upsertStmt {π : Type} (t : List (DbRow π)) (rs : List (DbRow π)) :
    Option (List (DbRow π)) :=
  if (rs.map (fun r => r.key)).Nodup then some (upsertBatch t rs) else none

/-- The observable content of a row: everything except `updatedAt`. -/
def visible {π : Type} (r : DbRow π) : String × π × Nat :=
  (r.key, r.payload, r.createdAt)

/-- The observable content of a table. -/
def visibleTable {π : Type} (t : List (DbRow π)) : List (String × π × Nat) :=
  t.map visible

/-- Two batches carry the same input data when they agree on keys and
payloads pointwise (the timestamps are taken at run time and may differ). -/
def SameInput {π : Type} (rs₁ rs₂ : List (DbRow π)) : Prop :=
  List.Forall₂ (fun a b => a.key = b.key ∧ a.payload = b.payload) rs₁ rs₂

/-- Rows related up to the payloads of keys in `ks`: same key, same
`createdAt`, and equal payload unless the key is in `ks`. -/
def RelRow {π : Type} (ks : List String) (a b : DbRow π) : Prop :=
  a.key = b.key ∧ a.createdAt = b.createdAt ∧ (a.payload = b.payload ∨ a.key ∈ ks)

/-- Tables related up to the payloads of keys in `ks`. -/
def RelTab {π : Type} (ks : List String) (u w : List (DbRow π)) : Prop :=
  List.Forall₂ (RelRow ks) u w

/-- Every row of `t` whose key is `k` carries payload `p`. -/
def AllKeyPayload {π : Type} (k : String) (p : π) (t : List (DbRow π)) : Prop :=
  ∀ x ∈ t, x.key = k → x.payload = p

/-! ## Employee PII scrubbing (populate_employees.py 37-53, 157-164) -/

/-- Python truthiness chain `a or b or ... or ''` over optional string
fields: the first present, non-empty string, else the empty string. -/
def firstTruthy : List (Option String) → String
  | [] => ""
  | some s :: rest => if s = "" then firstTruthy rest else s
  | none :: rest => firstTruthy rest

/-- `redact_name`: first letter plus asterisks; `"***"` for a missing or
empty name. -/
def redact_name (name : String) : String :=
  if name.data.isEmpty then "***"
  else String.mk (name.data.take 1 ++ ['*', '*', '*'])

/-- `email.split('@', 1)` when `'@' in email`: the part before the first
`'@'` and the part after it; `none` when there is no `'@'`. -/
def splitAtChar (c : Char) : List Char → Option (List Char × List Char)
  | [] => none
  | x :: xs =>
    if x = c then some ([], xs)
    else (splitAtChar c xs).map (fun p => (x :: p.1, p.2))

/-- `anonymize_email`: first letter of the local part plus mask plus the raw
domain; `"***@***.com"` when there is no `'@'`; `"***@" + domain` when the
local part is empty. -/
def anonymize_email (email : String) : String :=
  match splitAtChar '@' email.data with
  | none => "***@***.com"
  | some (lcl, dom) =>
    if lcl.isEmpty then String.mk ("***@".data ++ dom)
    else String.mk (lcl.take 1 ++ "***@".data ++ dom)

/-- The raw employee record fields feeding the PII columns; each field may
be absent. -/
structure RawEmployee where
  first_name : Option String
  firstName : Option String
  last_name : Option String
  lastName : Option String
  email : Option String
deriving Repr, DecidableEq

/-- The three PII columns of the transformed employee row. -/
structure EmployeePII where
  firstName : String
  lastName : String
  email : String
deriving Repr, DecidableEq

/-- The PII part of `transform_employee`: candidate raw fields are resolved
by Python `or` chains and passed through the scrubbers. -/
def transform_employee (e : RawEmployee) : EmployeePII :=
  { firstName := redact_name (firstTruthy [e.first_name, e.firstName])
    lastName := redact_name (firstTruthy [e.last_name, e.lastName])
    email := anonymize_email (firstTruthy [e.email]) }

/-- The pattern `<first-char>***` of the specification: the first character
of the raw value followed by exactly the three-asterisk mask. -/
def MatchesMask (raw out : String) : Prop :=
  ∃ c : Char, raw.data.head? = some c ∧ out.data = [c, '*', '*', '*']

/-- The pattern `<first-char>***@<domain>` of the specification: the first
character of the raw local part, the mask, then the raw domain. -/
def MatchesEmailMask (raw out : String) : Prop :=
  ∃ (c : Char) (lcl dom : List Char),
    splitAtChar '@' raw.data = some (c :: lcl, dom) ∧
    out.data = c :: '*' :: '*' :: '*' :: '@' :: dom

/-! ## Offboards (populate_offboards.py 105-189, 192-221)

The slice of `transform_offboard` constrained by the claims: the id,
employee reference, status, returned-assets derivation and processor
columns. Date parsing and the scrubbed `reason`/`notes` text fields are
modelled with the scrubbers of the PII-regex section. -/

/-- One entry of the raw `assets` list of an offboard record: a JSON object
carrying an optional `status`, or a non-object entry (skipped by the
`isinstance(asset, dict)` guard). -/
inductive AssetItem where
  | obj (status : Option String)
  | other
deriving Repr, DecidableEq

/-- The raw offboard record fields used by the transform slice. -/
structure RawOffboard where
  id : Option String
  employee_id : Option String
  status : Option String
  assets_count : Option Int
  assets : List AssetItem
  processed_by : Option String
  approved_by : Option String
deriving Repr, DecidableEq

/-- The transformed offboard row columns constrained by the claims. -/
structure OffboardRow where
  id : String
  employeeId : Option String
  status : String
  returnedAssets : Bool
  processedBy : Option String
deriving Repr, DecidableEq

/-- Python `if v:` on an optional string followed by `str(v)`: a present,
non-empty value passes, everything else becomes `None`. -/
def pyTruthyStr (o : Option String) : Option String :=
  match o with
  | some s => if s = "" then none else some s
  | none => none

/-- `all(asset.get('status') in ['returned', 'received', 'available'] for
asset in assets if isinstance(asset, dict))`. -/
def allAssetsReturned (assets : List AssetItem) : Bool :=
  assets.all fun a =>
    match a with
    | .obj st =>
      match st with
      | some s => s = "returned" || s = "received" || s = "available"
      | none => false
    | .other => true

/-- The claim slice of `transform_offboard`: extract the id and employee
reference, default the status, and derive `returnedAssets` from
`assets_count` and the per-asset statuses. -/
def transform_offboard (o : RawOffboard) : OffboardRow :=
  let assets_count := o.assets_count.getD 0
  let ra₀ : Bool := assets_count = 0
  let ra₁ : Bool :=
    if o.assets.isEmpty then ra₀
    else if allAssetsReturned o.assets then true else ra₀
  { id := o.id.getD ""
    employeeId := pyTruthyStr o.employee_id
    status := (pyTruthyStr o.status).getD "pending"
    returnedAssets := ra₁
    processedBy := pyTruthyStr (firstTruthy [o.processed_by, o.approved_by]) }

/-- The transform-and-filter loop of `populate_offboards`: rows whose
employee id is truthy but not among the ids read from the employees table
are skipped; the surviving rows are the batch handed to the upsert. -/
def populate_offboards_rows (valid_employee_ids : List String)
    (offboards : List RawOffboard) : List OffboardRow :=
  (offboards.map transform_offboard).filter fun t =>
    match t.employeeId with
    | some e => decide (e ∈ valid_employee_ids)
    | none => true

/-- A raw offboard with no `employee_id` at all, used to exercise the
filter. -/
def offboardNoEmployee : RawOffboard :=
  { id := some "O1", employee_id := none, status := some "completed",
    assets_count := some 1, assets := [], processed_by := none,
    approved_by := none }

/-- The `offboardDate` computation of `transform_offboard` (lines 117-123
of populate_offboards.py): start from `datetime.now()`, then overwrite with
the parsed first truthy candidate among `offboard_date`, `scheduled_date`
and `approved_at`; a missing or unparseable candidate leaves the wall
clock. `parse` stands for `datetime.fromisoformat` applied after the `Z`
replacement, and `now` for the wall clock of the run. This column is in the
conflict-update list of the offboards upsert. -/
def offboard_date_column (parse : String → Option Nat) (now : Nat)
    (offboard_date scheduled_date approved_at : Option String) : Nat :=
  let ds := firstTruthy [offboard_date, scheduled_date, approved_at]
  if ds = "" then now
  else
    match parse ds with
    | some d => d
    | none => now

/-! ## Assets (populate_assets.py 163-307, 355-390)

The slice of `transform_asset` constrained by the claims: the id and the
routing of the location payload into `assignedToId`/`officeId`/
`warehouseId`. The scrubbed `notes` field is modelled with the scrubbers of
the PII-regex section. -/

/-- The location payload of an asset: the `location_type` tag and the
`location_id`. -/
structure LocationData where
  location_type : Option String
  location_id : Option String
deriving Repr, DecidableEq

/-- The raw asset record fields used by the transform slice. -/
structure RawAsset where
  id : Option String
  location : Option LocationData
deriving Repr, DecidableEq

/-- The transformed asset row columns constrained by the claims. -/
structure AssetRow where
  id : String
  assignedToId : Option String
  officeId : Option String
  warehouseId : Option String
deriving Repr, DecidableEq

/-- The claim slice of `transform_asset`: the detailed location from the
per-asset endpoint overrides the collection payload, and the
`location_type` tag routes the `location_id` into exactly one of the three
reference columns. -/
def transform_asset (asset : RawAsset) (detailed_location : Option LocationData) :
    AssetRow :=
  let location_data := match detailed_location with
    | some d => some d
    | none => asset.location
  let assigned_to_id := match location_data with
    | some ld =>
      if ld.location_type = some "employee" then pyTruthyStr ld.location_id else none
    | none => none
  let office_warehouse := match location_data with
    | some ld =>
      if ld.location_type = some "office" then (pyTruthyStr ld.location_id, none)
      else if ld.location_type = some "warehouse" then
        ((none : Option String), pyTruthyStr ld.location_id)
      else (none, none)
    | none => (none, none)
  { id := asset.id.getD ""
    assignedToId := assigned_to_id
    officeId := office_warehouse.1
    warehouseId := office_warehouse.2 }

/-- Python `v and v not in ids` on an optional string column value. -/
def pyTruthyNotIn (v : Option String) (ids : List String) : Bool :=
  match v with
  | some s => !(s == "") && !(ids.contains s)
  | none => false

/-- The foreign-key validation loop of `populate_assets`: a truthy office or
warehouse reference that is not among the ids read from the referenced
table is set to NULL and counted; every row is kept. -/
def validate_assets (offIds whIds : List String) :
    List AssetRow → List AssetRow × Nat × Nat
  | [] => ([], 0, 0)
  | r :: rest =>
    let bo := pyTruthyNotIn r.officeId offIds
    let bw := pyTruthyNotIn r.warehouseId whIds
    let r' := { r with officeId := if bo then none else r.officeId,
                       warehouseId := if bw then none else r.warehouseId }
    let out := validate_assets offIds whIds rest
    (r' :: out.1, (if bo then 1 else 0) + out.2.1, (if bw then 1 else 0) + out.2.2)

/-- A transformed asset row referencing the non-existent warehouse `W99`
(the example of the specification). -/
def w99asset : AssetRow :=
  { id := "A1", assignedToId := none, officeId := none, warehouseId := some "W99" }

/-! ## Countries (populate_countries.py 123-151, 154-196) -/

/-- The country dict produced by `extract_country_data`. -/
structure CountryData where
  id : String
  name : String
  code : String
  requires_tin : Bool
  invoice_currency : Option String
  is_offboardable : Bool
deriving Repr, DecidableEq

/-- A row of the countries table. -/
structure CountryRow where
  id : String
  name : String
  code : String
  requiresTin : Bool
  invoiceCurrency : Option String
  isOffboardable : Bool
  createdAt : Nat
  updatedAt : Nat
deriving Repr, DecidableEq

/-- The dict accumulation of `collect_unique_countries`: a candidate whose
external id has already been seen is ignored; `list(dict.values())` keeps
the first occurrence per id in insertion order. -/
def collectCountriesAux (seen : List String) : List CountryData → List CountryData
  | [] => []
  | c :: rest =>
    if c.id ∈ seen then collectCountriesAux seen rest
    else c :: collectCountriesAux (c.id :: seen) rest

/-- `collect_unique_countries`, deduplicating by external id. -/
def collect_unique_countries (cs : List CountryData) : List CountryData :=
  collectCountriesAux [] cs

/-- One row of the countries upsert, `ON CONFLICT (code) DO UPDATE`: on a
code conflict the mutable columns and `updatedAt` are overwritten while
`id`, `code` and `createdAt` are untouched; otherwise the row is appended. -/
def upsertCountryRow (t : List CountryRow) (r : CountryRow) : List CountryRow :=
  if t.any (fun x => x.code == r.code) then
    t.map (fun x => if x.code == r.code then
      { x with name := r.name, requiresTin := r.requiresTin,
               invoiceCurrency := r.invoiceCurrency,
               isOffboardable := r.isOffboardable,
               updatedAt := r.updatedAt }
      else x)
  else t ++ [r]

/-- `populate_countries`: build the insert tuples with a single `now`
timestamp and write them in one `execute_values`
`INSERT ... ON CONFLICT (code) DO UPDATE` statement. Two rows of that one
statement conflicting on the same code raise a PostgreSQL cardinality
violation (`ON CONFLICT DO UPDATE command cannot affect row a second
time`); the handler rolls the transaction back and re-raises — modelled as
`none`, with nothing written. With distinct codes each row upserts. -/
def populate_countries (t : List CountryRow) (now : Nat)
    (countries : List CountryData) : Option (List CountryRow) :=
  let rows := countries.map (fun c =>
    ({ id := c.id, name := c.name, code := c.code, requiresTin := c.requires_tin,
       invoiceCurrency := c.invoice_currency, isOffboardable := c.is_offboardable,
       createdAt := now, updatedAt := now } : CountryRow))
  if (rows.map (fun r => r.code)).Nodup then some (rows.foldl upsertCountryRow t)
  else none

/-- The codes stored in the countries table. -/
def countryCodes (t : List CountryRow) : List String :=
  t.map (fun x => x.code)

/-! ## Paginated fetch (populate_employees.py 97-149, populate_offices.py 34-98)

One page of an API response: either a bare JSON array, or an object whose
items come from `data`, else `value`, else the object itself as a single
item, together with the pagination metadata. -/

/-- One page of a collection response. -/
inductive PageData (α : Type) where
  | arr (items : List α)
  | obj (data : Option (List α)) (value : Option (List α))
      (current_page : Option Int) (last_page : Option Int)
      (next : Option String) (selfItem : α)
deriving Repr

/-- `data['data']` if the key is present, else `data['value']`, else
`[data]`. -/
def pageItems {α : Type} (data : Option (List α)) (value : Option (List α))
    (selfItem : α) : List α :=
  match data with
  | some l => l
  | none =>
    match value with
    | some l => l
    | none => [selfItem]

/-- The break condition of the fetch loop:
`not links.get('next') or (last_page and current_page >= last_page)` under
Python truthiness (an absent or empty `next` is falsy; a `last_page` of 0 is
falsy). -/
def stop_condition (current : Int) (last_page : Option Int)
    (next : Option String) : Bool :=
  (match next with
    | some s => s == ""
    | none => true) ||
  (match last_page with
    | some lp => if lp = 0 then false else decide (current ≥ lp)
    | none => false)

/-- Modelled from the spec: the termination rule as the claim words it —
stop when `links.next` is absent, or when `meta.last_page` is present and
`current_page ≥ last_page`. -/
def claimStop (current : Int) (last_page : Option Int)
    (next : Option String) : Bool :=
  (match next with
    | some _ => false
    | none => true) ||
  (match last_page with
    | some lp => decide (current ≥ lp)
    | none => false)

/-- Modelled from the spec, amended: stop when `links.next` is absent or
empty, or when `meta.last_page` is present and non-zero and
`current_page ≥ last_page`. -/
def claimStopAmended (current : Int) (last_page : Option Int)
    (next : Option String) : Bool :=
  (match next with
    | some s => s == ""
    | none => true) ||
  (match last_page with
    | some lp => !(lp == 0) && decide (current ≥ lp)
    | none => false)

/-- The fetch loop shared by the population scripts, with an explicit fuel
bound; returns the accumulated items and the number of page requests
issued. A bare-array response replaces the accumulator and stops. -/
def fetchPagesGo {α : Type} (src : Int → PageData α) :
    Nat → Int → List α → Nat → List α × Nat
  | 0, _, acc, reqs => (acc, reqs)
  | fuel + 1, page, acc, reqs =>
    match src page with
    | .arr items => (items, reqs + 1)
    | .obj data value current_page last_page next selfItem =>
      let items := pageItems data value selfItem
      let acc₁ := acc ++ items
      let current : Int := current_page.getD page
      if stop_condition current last_page next then (acc₁, reqs + 1)
      else fetchPagesGo src fuel (page + 1) acc₁ (reqs + 1)

/-- `fetch_employees`-style pagination from page 1. -/
def fetch_collection {α : Type} (src : Int → PageData α) (fuel : Nat) :
    List α × Nat :=
  fetchPagesGo src fuel 1 [] 0

/-- Status-aware fetch loop of `fetch_employees`: `raise_for_status` with no
surrounding `try` propagates every 4xx/5xx response — 404 included — as a
hard failure. -/
def fetchEmployeesGo {α : Type} (src : Int → Nat × PageData α) :
    Nat → Int → List α → Except Nat (List α)
  | 0, _, acc => .ok acc
  | fuel + 1, page, acc =>
    let resp := src page
    if 400 ≤ resp.1 then .error resp.1
    else
      match resp.2 with
      | .arr items => .ok items
      | .obj data value current_page last_page next selfItem =>
        let items := pageItems data value selfItem
        let acc₁ := acc ++ items
        let current : Int := current_page.getD page
        if stop_condition current last_page next then .ok acc₁
        else fetchEmployeesGo src fuel (page + 1) acc₁

/-- `fetch_employees` with status codes. -/
def fetch_employees {α : Type} (src : Int → Nat × PageData α) (fuel : Nat) :
    Except Nat (List α) :=
  fetchEmployeesGo src fuel 1 []

/-- Status-aware fetch loop of `fetch_offices`: a 404 returns an empty list
directly, and the surrounding `try`/`except RequestException` turns every
other 4xx/5xx — and any request error — into an empty list as well. -/
def fetchOfficesGo {α : Type} (src : Int → Nat × PageData α) :
    Nat → Int → List α → List α
  | 0, _, acc => acc
  | fuel + 1, page, acc =>
    let resp := src page
    if resp.1 = 404 then []
    else if 400 ≤ resp.1 then []
    else
      match resp.2 with
      | .arr items => items
      | .obj data value current_page last_page next selfItem =>
        let items := pageItems data value selfItem
        let acc₁ := acc ++ items
        let current : Int := current_page.getD page
        if stop_condition current last_page next then acc₁
        else fetchOfficesGo src fuel (page + 1) acc₁

/-- `fetch_offices` with status codes. -/
def fetch_offices {α : Type} (src : Int → Nat × PageData α) (fuel : Nat) :
    List α :=
  fetchOfficesGo src fuel 1 []

/-- The synthetic source of the specification example: 3 pages of 2 items
each with `last_page = 3`. -/
def synthThreePages : Int → PageData Nat := fun page =>
  if page = 1 then .obj (some [1, 2]) none (some 1) (some 3) (some "p2") 0
  else if page = 2 then .obj (some [3, 4]) none (some 2) (some 3) (some "p3") 0
  else .obj (some [5, 6]) none (some 3) (some 3) none 0

/-- A source whose first page carries a present but falsy `last_page = 0`
and a `next` link; the second page is a bare array. -/
def synthZeroLastPage : Int → PageData Nat := fun page =>
  if page = 1 then .obj (some [1, 2]) none (some 1) (some 0) (some "p2") 0
  else .arr [9]

/-- A source answering every request with HTTP 404. -/
def synth404 : Int → Nat × PageData Nat := fun _ => (404, .arr [])

/-- A source answering every request with HTTP 500. -/
def synth500 : Int → Nat × PageData Nat := fun _ => (500, .arr [])

/-! ## PII text scrubbing (populate_assets.py 36-54, populate_offboards.py 33-47)

The Python `re` substitutions are embedded with a small backtracking regex
engine over the exact patterns of the source. -/

/-- Regular expression abstract syntax: character classes, sequencing,
ordered alternation, greedy counted repetition, and the word-boundary
assertion, matching the constructs of the patterns in the source. -/
inductive RE where
  | cls (p : Char → Bool)
  | seq (a b : RE)
  | alt (a b : RE)
  | eps
  | rep (a : RE) (lo : Nat) (hi : Option Nat)
  | wb

def isWordChar (c : Char) : Bool :=
  c.isAlphanum || c == '_'

def predHi (hi : Option Nat) : Option Nat :=
  match hi with
  | some (h + 1) => some h
  | some 0 => some 0
  | none => none

/-- Backtracking matcher in continuation-passing style: alternatives are
tried in preference order (greedy repetition first, left alternative
first), and the first success of the continuation wins — the preference
semantics of the Python `re` engine. `prev` is the character immediately
before the current position, for the word-boundary test. -/
def matchM {α : Type} : Nat → RE → Option Char → List Char →
    (Option Char → List Char → Option α) → Option α
  | 0, _, _, _, _ => none
  | fuel + 1, re, prev, s, k =>
    match re with
    | .eps => k prev s
    | .wb =>
      let pw := match prev with
        | some c => isWordChar c
        | none => false
      let nw := match s with
        | c :: _ => isWordChar c
        | [] => false
      if pw != nw then k prev s else none
    | .cls p =>
      match s with
      | c :: rest => if p c then k (some c) rest else none
      | [] => none
    | .seq a b =>
      matchM fuel a prev s (fun p₁ s₁ => matchM fuel b p₁ s₁ k)
    | .alt a b =>
      match matchM fuel a prev s k with
      | some r => some r
      | none => matchM fuel b prev s k
    | .rep a lo hi =>
      match lo with
      | l + 1 =>
        matchM fuel a prev s (fun p₁ s₁ =>
          matchM fuel (.rep a l (predHi hi)) p₁ s₁ k)
      | 0 =>
        match hi with
        | some 0 => k prev s
        | _ =>
          match matchM fuel a prev s (fun p₁ s₁ =>
              matchM fuel (.rep a 0 (predHi hi)) p₁ s₁ k) with
          | some r => some r
          | none => k prev s

def engineFuel : Nat := 6000

/-- The preferred match of `re` at the current position: the last consumed
character and the remaining input, or `none` if `re` does not match here. -/
def reMatchAt (re : RE) (prev : Option Char) (s : List Char) :
    Option (Option Char × List Char) :=
  matchM engineFuel re prev s (fun p₁ rest => some (p₁, rest))

/-- `re.sub` over a character list: replace every non-overlapping leftmost
match, scanning the original text (the character before a continuation
position is the original character, as in the Python engine). -/
def reSubGo (re : RE) (repl : List Char) :
    Nat → Option Char → List Char → List Char
  | 0, _, s => s
  | outer + 1, prev, s =>
    match reMatchAt re prev s with
    | some (p₁, rest) =>
      if rest.length = s.length then
        match s with
        | [] => []
        | c :: cs => c :: reSubGo re repl outer (some c) cs
      else repl ++ reSubGo re repl outer p₁ rest
    | none =>
      match s with
      | [] => []
      | c :: cs => c :: reSubGo re repl outer (some c) cs

def reSub (re : RE) (repl : String) (s : String) : String :=
  ⟨reSubGo re repl.data (s.data.length + 1) none s.data⟩

/-- `re.search`: does `re` match at any position of `s`? -/
def reSearchGo (re : RE) : Nat → Option Char → List Char → Bool
  | 0, _, _ => false
  | outer + 1, prev, s =>
    match reMatchAt re prev s with
    | some _ => true
    | none =>
      match s with
      | [] => false
      | c :: cs => reSearchGo re outer (some c) cs

def reSearch (re : RE) (s : String) : Bool :=
  reSearchGo re (s.data.length + 1) none s.data

def seqL (rs : List RE) : RE := rs.foldr .seq .eps

def altL (rs : List RE) : RE := rs.foldr .alt (.cls (fun _ => false))

def chr (c : Char) : RE := .cls (fun x => x == c)

def ichr (c : Char) : RE := .cls (fun x => x.toLower == c.toLower)

def istr (s : String) : RE := seqL (s.data.map ichr)

def digitC (c : Char) : Bool := c.isDigit

def pyWhitespace (c : Char) : Bool :=
  c == ' ' || c == '\t' || c == '\n' || c == '\r' ||
  c == '\x0b' || c == '\x0c'

def emailLocalChar (c : Char) : Bool :=
  c.isAlphanum || c == '.' || c == '_' || c == '%' || c == '+' || c == '-'

def emailDomainChar (c : Char) : Bool :=
  c.isAlphanum || c == '.' || c == '-'

def emailTailChar (c : Char) : Bool :=
  c.isAlpha || c == '|'

/-- `\b[A-Za-z0-9._%+-]+@[A-Za-z0-9.-]+\.[A-Z|a-z]{2,}\b`. -/
def emailRE : RE :=
  seqL [.wb, .rep (.cls emailLocalChar) 1 none, chr '@',
    .rep (.cls emailDomainChar) 1 none, chr '.',
    .rep (.cls emailTailChar) 2 none, .wb]

def dashDot (c : Char) : Bool := c == '-' || c == '.'

/-- `\b\d{3}[-.]?\d{3}[-.]?\d{4}\b`. -/
def phoneUsRE : RE :=
  seqL [.wb, .rep (.cls digitC) 3 (some 3), .rep (.cls dashDot) 0 (some 1),
    .rep (.cls digitC) 3 (some 3), .rep (.cls dashDot) 0 (some 1),
    .rep (.cls digitC) 4 (some 4), .wb]

def dashDotWs (c : Char) : Bool := c == '-' || c == '.' || pyWhitespace c

/-- `\b\+?\d{1,3}[-.\s]?\(?\d{1,4}\)?[-.\s]?\d{1,4}[-.\s]?\d{1,9}\b`. -/
def phoneIntlRE : RE :=
  seqL [.wb, .rep (chr '+') 0 (some 1), .rep (.cls digitC) 1 (some 3),
    .rep (.cls dashDotWs) 0 (some 1), .rep (chr '(') 0 (some 1),
    .rep (.cls digitC) 1 (some 4), .rep (chr ')') 0 (some 1),
    .rep (.cls dashDotWs) 0 (some 1), .rep (.cls digitC) 1 (some 4),
    .rep (.cls dashDotWs) 0 (some 1), .rep (.cls digitC) 1 (some 9), .wb]

/-- `\b\d{3}-\d{2}-\d{4}\b`. -/
def ssnRE : RE :=
  seqL [.wb, .rep (.cls digitC) 3 (some 3), chr '-',
    .rep (.cls digitC) 2 (some 2), chr '-',
    .rep (.cls digitC) 4 (some 4), .wb]

def dashWs (c : Char) : Bool := c == '-' || pyWhitespace c

/-- `\b\d{4}[-\s]?\d{4}[-\s]?\d{4}[-\s]?\d{4}\b`. -/
def cardRE : RE :=
  seqL [.wb, .rep (.cls digitC) 4 (some 4), .rep (.cls dashWs) 0 (some 1),
    .rep (.cls digitC) 4 (some 4), .rep (.cls dashWs) 0 (some 1),
    .rep (.cls digitC) 4 (some 4), .rep (.cls dashWs) 0 (some 1),
    .rep (.cls digitC) 4 (some 4), .wb]

def plusParen (c : Char) : Bool := c == '+' || c == '('

def nonzeroDigit (c : Char) : Bool := c.isDigit && !(c == '0')

def phoneMidChar (c : Char) : Bool :=
  c.isDigit || c == ' ' || c == '.' || c == '-' || c == '(' || c == ')'

/-- `[\+\(]?[1-9][0-9 .\-\(\)]{8,}[0-9]` (no word boundaries). -/
def phoneLooseRE : RE :=
  seqL [.rep (.cls plusParen) 0 (some 1), .cls nonzeroDigit,
    .rep (.cls phoneMidChar) 8 none, .cls digitC]

def wordOrWs (c : Char) : Bool := isWordChar c || pyWhitespace c

/-- `\d+\s+[\w\s]+(?:Street|St|Avenue|Ave|Road|Rd|Drive|Dr|Lane|Ln|Boulevard|Blvd|Way|Court|Ct|Circle|Cir)\b` with IGNORECASE. -/
def addressRE : RE :=
  seqL [.rep (.cls digitC) 1 none, .rep (.cls pyWhitespace) 1 none,
    .rep (.cls wordOrWs) 1 none,
    altL [istr "Street", istr "St", istr "Avenue", istr "Ave", istr "Road",
      istr "Rd", istr "Drive", istr "Dr", istr "Lane", istr "Ln",
      istr "Boulevard", istr "Blvd", istr "Way", istr "Court", istr "Ct",
      istr "Circle", istr "Cir"], .wb]

/-- `scrub_text` of populate_assets.py: the five substitutions in source
order — email, US phone, international phone, SSN, card. -/
def scrub_text (text : String) : String :=
  if text = "" then text
  else
    let t₁ := reSub emailRE "[EMAIL_REDACTED]" text
    let t₂ := reSub phoneUsRE "[PHONE_REDACTED]" t₁
    let t₃ := reSub phoneIntlRE "[PHONE_REDACTED]" t₂
    let t₄ := reSub ssnRE "[SSN_REDACTED]" t₃
    reSub cardRE "[CARD_REDACTED]" t₄

def pyStrip (s : String) : String :=
  ⟨((s.data.dropWhile pyWhitespace).reverse.dropWhile pyWhitespace).reverse⟩

/-- `scrub_pii_text` of populate_offboards.py: email, one loose phone
format, street address, then `strip()`; no SSN and no card pattern. -/
def scrub_pii_text (text : String) : String :=
  if text = "" then text
  else
    let t₁ := reSub emailRE "[EMAIL_REDACTED]" text
    let t₂ := reSub phoneLooseRE "[PHONE_REDACTED]" t₁
    let t₃ := reSub addressRE "[ADDRESS_REDACTED]" t₂
    pyStrip t₃

/-- Word-status of the character just before the current position
(`false` at the start of the text), as used by the word-boundary test. -/
def wsOpt : Option Char → Bool
  | some c => isWordChar c
  | none => false

/-- Word-status of the first character of `v`, or the default `d` when `v`
is empty. -/
def ctxHead (v : List Char) (d : Bool) : Bool :=
  match v with
  | [] => d
  | c :: _ => isWordChar c

/-- Word-status of the last character of `u`, or the default `d` when `u`
is empty. -/
def ctxLast (u : List Char) (d : Bool) : Bool :=
  match u with
  | [] => d
  | c :: us => ctxLast us (isWordChar c)

/-- The last character of `u`, or `prev` when `u` is empty: the character
threaded by the matcher as the one before the current position. -/
def lastOpt (u : List Char) (prev : Option Char) : Option Char :=
  match u with
  | [] => prev
  | c :: us => lastOpt us (some c)

/-- Declarative matching: `DMatch n re pw u nw` holds when `re` can consume
exactly `u` within recursion depth `n`, where `pw` is the word-status of
the character just before `u` and `nw` that of the character just after.
The rules mirror the clauses of `matchM` one-to-one. -/
inductive DMatch : Nat → RE → Bool → List Char → Bool → Prop where
  | eps {n : Nat} {pw nw : Bool} : DMatch (n + 1) .eps pw [] nw
  | wb {n : Nat} {pw nw : Bool} : pw ≠ nw → DMatch (n + 1) .wb pw [] nw
  | cls {n : Nat} {p : Char → Bool} {c : Char} {pw nw : Bool} :
      p c = true → DMatch (n + 1) (.cls p) pw [c] nw
  | seq {n : Nat} {a b : RE} {pw nw : Bool} {u₁ u₂ : List Char} :
      DMatch n a pw u₁ (ctxHead u₂ nw) →
      DMatch n b (ctxLast u₁ pw) u₂ nw →
      DMatch (n + 1) (.seq a b) pw (u₁ ++ u₂) nw
  | altl {n : Nat} {a b : RE} {pw nw : Bool} {u : List Char} :
      DMatch n a pw u nw → DMatch (n + 1) (.alt a b) pw u nw
  | altr {n : Nat} {a b : RE} {pw nw : Bool} {u : List Char} :
      DMatch n b pw u nw → DMatch (n + 1) (.alt a b) pw u nw
  | repS {n : Nat} {a : RE} {lo : Nat} {hi : Option Nat} {pw nw : Bool}
      {u₁ u₂ : List Char} :
      DMatch n a pw u₁ (ctxHead u₂ nw) →
      DMatch n (.rep a lo (predHi hi)) (ctxLast u₁ pw) u₂ nw →
      DMatch (n + 1) (.rep a (lo + 1) hi) pw (u₁ ++ u₂) nw
  | rep0 {n : Nat} {a : RE} {hi : Option Nat} {pw nw : Bool} :
      DMatch (n + 1) (.rep a 0 hi) pw [] nw
  | repG {n : Nat} {a : RE} {hi : Option Nat} {pw nw : Bool}
      {u₁ u₂ : List Char} :
      hi ≠ some 0 →
      DMatch n a pw u₁ (ctxHead u₂ nw) →
      DMatch n (.rep a 0 (predHi hi)) (ctxLast u₁ pw) u₂ nw →
      DMatch (n + 1) (.rep a 0 hi) pw (u₁ ++ u₂) nw

/-- No substring of `s` matches `P` when boundary word-statuses are read
off from `s` itself, with `pw` the status of the character before `s`. -/
def NoMatch (P : RE) (pw : Bool) (s : List Char) : Prop :=
  ∀ u m v, s = u ++ (m ++ v) →
    ¬ DMatch engineFuel P (ctxLast u pw) m (ctxHead v false)

/-- Patterns that begin with the word-boundary assertion. -/
inductive StartWB : RE → Prop where
  | wb : StartWB .wb
  | seql {a b : RE} : StartWB a → StartWB (.seq a b)

/-- Patterns that end with the word-boundary assertion. -/
inductive EndWB : RE → Prop where
  | wb : EndWB .wb
  | seqr {a b : RE} : EndWB b → EndWB (.seq a b)
  | seqe {a : RE} : EndWB a → EndWB (.seq a .eps)

/-- Patterns every match of which contains a character satisfying `req`. -/
inductive ReqC : RE → (Char → Bool) → Prop where
  | cls {p req : Char → Bool} : (∀ c, p c = true → req c = true) →
      ReqC (.cls p) req
  | seql {a b : RE} {req : Char → Bool} : ReqC a req → ReqC (.seq a b) req
  | seqr {a b : RE} {req : Char → Bool} : ReqC b req → ReqC (.seq a b) req
  | alt {a b : RE} {req : Char → Bool} : ReqC a req → ReqC b req →
      ReqC (.alt a b) req
  | rep {a : RE} {lo : Nat} {hi : Option Nat} {req : Char → Bool} :
      ReqC a req → ReqC (.rep a (lo + 1) hi) req

/-- Union of the character classes of a pattern: every character consumed
by a match lies in it. -/
def ClsOf : RE → Char → Bool
  | .cls p, c => p c
  | .seq a b, c => ClsOf a c || ClsOf b c
  | .alt a b, c => ClsOf a c || ClsOf b c
  | .rep a _ _, c => ClsOf a c
  | .eps, _ => false
  | .wb, _ => false

/-! ## Theorems -/

theorem relTab_any {π : Type} {ks : List String} {u w : List (DbRow π)}
    (h : RelTab ks u w) (k : String) :
    u.any (fun x => x.key == k) = w.any (fun x => x.key == k) := by
  induction h with
  | nil => rfl
  | cons hab _ ih =>
    simp only [List.any_cons, ih]
    rcases hab with ⟨hk, -, -⟩
    rw [hk]

theorem relTab_mono {π : Type} {ks ks' : List String} {u w : List (DbRow π)}
    (hsub : ∀ k, k ∈ ks → k ∈ ks') (h : RelTab ks u w) : RelTab ks' u w := by
  induction h with
  | nil => exact List.Forall₂.nil
  | cons hab _ ih =>
    refine List.Forall₂.cons ?_ ih
    rcases hab with ⟨hk, hc, hp⟩
    exact ⟨hk, hc, hp.imp id (hsub _)⟩

theorem relRow_conflictUpdate {π : Type} {ks : List String} {a b : DbRow π}
    (hab : RelRow ks a b) (r : DbRow π) (hkr : r.key ∈ ks) :
    RelRow ks (conflictUpdate r a) (conflictUpdate r b) := by
  rcases hab with ⟨hk, hc, hp⟩
  unfold conflictUpdate
  have hkk : (a.key == r.key) = (b.key == r.key) := by rw [hk]
  by_cases hbk : (b.key == r.key) = true
  · rw [hkk, if_pos hbk, if_pos hbk]
    refine ⟨hk, hc, Or.inr ?_⟩
    have hbr : b.key = r.key := eq_of_beq hbk
    show a.key ∈ ks
    rw [hk, hbr]
    exact hkr
  · rw [hkk, if_neg hbk, if_neg hbk]
    exact ⟨hk, hc, hp⟩

theorem relTab_upsertRow {π : Type} {ks : List String} {u w : List (DbRow π)}
    (h : RelTab ks u w) (r : DbRow π) (hkr : r.key ∈ ks) :
    RelTab ks (upsertRow u r) (upsertRow w r) := by
  unfold upsertRow
  rw [relTab_any h r.key]
  by_cases hmem : w.any (fun x => x.key == r.key) = true
  · rw [if_pos hmem, if_pos hmem]
    exact List.rel_map (fun {a b} hab => relRow_conflictUpdate hab r hkr) h
  · rw [if_neg hmem, if_neg hmem]
    exact List.rel_append h
      (List.Forall₂.cons ⟨rfl, rfl, Or.inl rfl⟩ List.Forall₂.nil)

theorem key_conflictUpdate {π : Type} (r x : DbRow π) :
    (conflictUpdate r x).key = x.key := by
  unfold conflictUpdate
  by_cases hx : (x.key == r.key) = true
  · rw [if_pos hx]
  · rw [if_neg hx]

theorem any_key_upsertRow {π : Type} (t : List (DbRow π)) (r : DbRow π) (k : String)
    (h : t.any (fun x => x.key == k) = true) :
    (upsertRow t r).any (fun x => x.key == k) = true := by
  unfold upsertRow
  rcases List.any_eq_true.mp h with ⟨x, hx, hk⟩
  by_cases hmem : t.any (fun x => x.key == r.key) = true
  · rw [if_pos hmem, List.any_map]
    refine List.any_eq_true.mpr ⟨x, hx, ?_⟩
    show ((conflictUpdate r x).key == k) = true
    rw [key_conflictUpdate]
    exact hk
  · rw [if_neg hmem, List.any_append, h]
    rfl

theorem any_key_upsertRow_self {π : Type} (t : List (DbRow π)) (r : DbRow π) :
    (upsertRow t r).any (fun x => x.key == r.key) = true := by
  unfold upsertRow
  by_cases hmem : t.any (fun x => x.key == r.key) = true
  · rw [if_pos hmem, List.any_map]
    rcases List.any_eq_true.mp hmem with ⟨x, hx, hk⟩
    refine List.any_eq_true.mpr ⟨x, hx, ?_⟩
    show ((conflictUpdate r x).key == r.key) = true
    rw [key_conflictUpdate]
    exact hk
  · rw [if_neg hmem, List.any_append]
    simp

theorem any_key_upsertBatch {π : Type} (t : List (DbRow π)) (rs : List (DbRow π)) (k : String)
    (h : t.any (fun x => x.key == k) = true) :
    (upsertBatch t rs).any (fun x => x.key == k) = true := by
  induction rs generalizing t with
  | nil => exact h
  | cons r rest ih => exact ih (upsertRow t r) (any_key_upsertRow t r k h)

theorem allKeyPayload_upsertRow_self {π : Type} (t : List (DbRow π)) (r : DbRow π) :
    AllKeyPayload r.key r.payload (upsertRow t r) := by
  unfold upsertRow
  by_cases hmem : t.any (fun x => x.key == r.key) = true
  · rw [if_pos hmem]
    intro y hy hyk
    rcases List.mem_map.mp hy with ⟨x, hx, hxy⟩
    subst hxy
    unfold conflictUpdate
    by_cases hxk : (x.key == r.key) = true
    · rw [if_pos hxk]
    · rw [key_conflictUpdate] at hyk
      exact absurd (beq_iff_eq.mpr hyk) hxk
  · rw [if_neg hmem]
    intro y hy hyk
    rcases List.mem_append.mp hy with hyt | hyr
    · exfalso
      have : t.any (fun x => x.key == r.key) = true :=
        List.any_eq_true.mpr ⟨y, hyt, beq_iff_eq.mpr hyk⟩
      exact hmem this
    · rw [List.mem_singleton.mp hyr]

theorem allKeyPayload_upsertRow_other {π : Type} {k : String} {p : π}
    {t : List (DbRow π)} (hall : AllKeyPayload k p t) (r : DbRow π) (hne : r.key ≠ k) :
    AllKeyPayload k p (upsertRow t r) := by
  unfold upsertRow
  by_cases hmem : t.any (fun x => x.key == r.key) = true
  · rw [if_pos hmem]
    intro y hy hyk
    rcases List.mem_map.mp hy with ⟨x, hx, hxy⟩
    subst hxy
    rw [key_conflictUpdate] at hyk
    unfold conflictUpdate
    by_cases hxk : (x.key == r.key) = true
    · exact absurd (hyk ▸ eq_of_beq hxk : k = r.key).symm hne
    · rw [if_neg hxk]
      exact hall x hx hyk
  · rw [if_neg hmem]
    intro y hy hyk
    rcases List.mem_append.mp hy with hyt | hyr
    · exact hall y hyt hyk
    · rw [List.mem_singleton.mp hyr] at hyk
      exact absurd hyk hne

theorem allKeyPayload_upsertBatch {π : Type} {k : String} {p : π}
    {t : List (DbRow π)} (hall : AllKeyPayload k p t) (rs : List (DbRow π))
    (hks : ∀ r ∈ rs, r.key ≠ k) :
    AllKeyPayload k p (upsertBatch t rs) := by
  induction rs generalizing t with
  | nil => exact hall
  | cons r rest ih =>
    exact ih (allKeyPayload_upsertRow_other hall r (hks r (List.mem_cons_self r rest)))
      (fun x hx => hks x (List.mem_cons_of_mem r hx))

theorem relTab_refl {π : Type} (ks : List String) (t : List (DbRow π)) :
    RelTab ks t t :=
  List.forall₂_same.mpr (fun _ _ => ⟨rfl, rfl, Or.inl rfl⟩)

theorem relTab_strengthen {π : Type} {ks : List String} {k : String}
    {u w : List (DbRow π)} (h : RelTab (k :: ks) u w)
    (hu : ∀ x ∈ u, x.key ≠ k) : RelTab ks u w := by
  induction h with
  | nil => exact List.Forall₂.nil
  | cons hab htail ih =>
    refine List.Forall₂.cons ?_ (ih (fun x hx => hu x (List.mem_cons_of_mem _ hx)))
    rcases hab with ⟨hk, hc, hp⟩
    refine ⟨hk, hc, ?_⟩
    rcases hp with hp | hp
    · exact Or.inl hp
    · rcases List.mem_cons.mp hp with hp | hp
      · exact absurd hp (hu _ (List.mem_cons_self _ _))
      · exact Or.inr hp

theorem relTab_upsertRow_shrink {π : Type} {ks : List String}
    {u w : List (DbRow π)} {r : DbRow π} (h : RelTab (r.key :: ks) u w) :
    RelTab ks (upsertRow u r) (upsertRow w r) := by
  unfold upsertRow
  rw [relTab_any h r.key]
  by_cases hmem : w.any (fun x => x.key == r.key) = true
  · rw [if_pos hmem, if_pos hmem]
    refine List.rel_map (fun {a b} hab => ?_) h
    rcases hab with ⟨hk, hc, hp⟩
    unfold conflictUpdate
    have hkk : (a.key == r.key) = (b.key == r.key) := by rw [hk]
    by_cases hbk : (b.key == r.key) = true
    · rw [hkk, if_pos hbk, if_pos hbk]
      exact ⟨hk, hc, Or.inl rfl⟩
    · rw [hkk, if_neg hbk, if_neg hbk]
      refine ⟨hk, hc, ?_⟩
      rcases hp with hp | hp
      · exact Or.inl hp
      · rcases List.mem_cons.mp hp with hp | hp
        · exfalso
          have hbr : b.key = r.key := by rw [← hk]; exact hp
          exact hbk (beq_iff_eq.mpr hbr)
        · exact Or.inr hp
  · rw [if_neg hmem, if_neg hmem]
    have hu : ∀ x ∈ u, x.key ≠ r.key := by
      intro x hx hxk
      have hwf : (w.any fun y => y.key == r.key) = false := Bool.eq_false_iff.mpr hmem
      have hx' : u.any (fun y => y.key == r.key) = true :=
        List.any_eq_true.mpr ⟨x, hx, beq_iff_eq.mpr hxk⟩
      rw [relTab_any h r.key, hwf] at hx'
      exact Bool.false_ne_true hx'
    exact List.rel_append (relTab_strengthen h hu)
      (List.Forall₂.cons ⟨rfl, rfl, Or.inl rfl⟩ List.Forall₂.nil)

theorem relTab_upsertBatch_shrink {π : Type} {u w : List (DbRow π)}
    (rs : List (DbRow π)) (h : RelTab (rs.map (fun r => r.key)) u w) :
    RelTab [] (upsertBatch u rs) (upsertBatch w rs) := by
  induction rs generalizing u w with
  | nil => exact h
  | cons r rest ih => exact ih (relTab_upsertRow_shrink h)

theorem visibleTable_eq_of_relTab_nil {π : Type} {u w : List (DbRow π)}
    (h : RelTab [] u w) : visibleTable u = visibleTable w := by
  induction h with
  | nil => rfl
  | cons hab _ ih =>
    rcases hab with ⟨hk, hc, hp⟩
    rcases hp with hp | hp
    · simp only [visibleTable, List.map_cons] at *
      rw [ih]
      unfold visible
      rw [hk, hc, hp]
    · exact absurd hp (List.not_mem_nil _)

theorem sameInput_keys {π : Type} {rs₁ rs₂ : List (DbRow π)} (h : SameInput rs₁ rs₂) :
    rs₁.map (fun r => r.key) = rs₂.map (fun r => r.key) := by
  induction h with
  | nil => rfl
  | cons hab _ ih =>
    simp only [List.map_cons, ih]
    rw [hab.1]

theorem relTab_upsertRow_already {π : Type} {ks : List String}
    {w : List (DbRow π)} {q : DbRow π}
    (hmem : w.any (fun x => x.key == q.key) = true)
    (hcase : q.key ∈ ks ∨ AllKeyPayload q.key q.payload w) :
    RelTab ks (upsertRow w q) w := by
  unfold upsertRow
  rw [if_pos hmem]
  unfold RelTab
  rw [List.forall₂_map_left_iff]
  refine List.forall₂_same.mpr (fun x hx => ?_)
  unfold conflictUpdate
  by_cases hxk : (x.key == q.key) = true
  · rw [if_pos hxk]
    refine ⟨rfl, rfl, ?_⟩
    rcases hcase with hks | hall
    · exact Or.inr ((eq_of_beq hxk) ▸ hks)
    · exact Or.inl (hall x hx (eq_of_beq hxk)).symm
  · rw [if_neg hxk]
    exact ⟨rfl, rfl, Or.inl rfl⟩

theorem upsertBatch_restates {π : Type} (t : List (DbRow π)) (r : DbRow π)
    (rs : List (DbRow π)) :
    upsertBatch t (r :: rs) = upsertBatch (upsertRow t r) rs := rfl

/-- C1 amended. A second run of a population job whose batch statement
succeeds, over rows carrying the same conflict keys and the same payload
columns (the condition the date-fallback columns of offboards and orders
can violate), leaves the observable table contents — every column except
`updatedAt`, and hence also the row count — exactly as after the first
run; and a batch that fails the statement fails identically on the second
run, leaving the table unchanged both times. -/
theorem populate_job_idempotent {π : Type} (t rs₁ rs₂ : List (DbRow π))
    (h : SameInput rs₁ rs₂) :
    (∀ t₁, upsertStmt t rs₁ = some t₁ →
      upsertStmt t₁ rs₂ = some (upsertBatch t₁ rs₂) ∧
      visibleTable (upsertBatch t₁ rs₂) = visibleTable t₁ ∧
      (upsertBatch t₁ rs₂).length = t₁.length) ∧
    (upsertStmt t rs₁ = none → upsertStmt t rs₂ = none) := by
  have main : ∀ {ps qs : List (DbRow π)}, SameInput ps qs → ∀ v : List (DbRow π),
      visibleTable (upsertBatch (upsertBatch v ps) qs) =
        visibleTable (upsertBatch v ps) := by
    intro ps qs hpq
    induction hpq with
    | nil => intro v; rfl
    | @cons p q ps' qs' hhead htail ih =>
      intro v
      rw [upsertBatch_restates, upsertBatch_restates]
      have hkey : q.key = p.key := hhead.1.symm
      have hpay : q.payload = p.payload := hhead.2.symm
      set v₁ := upsertRow v p with hv₁
      set w := upsertBatch v₁ ps' with hw
      have hmemw : w.any (fun x => x.key == q.key) = true := by
        rw [hw]
        refine any_key_upsertBatch v₁ ps' q.key ?_
        rw [hv₁, hkey]
        exact any_key_upsertRow_self v p
      have hrel : RelTab (qs'.map (fun r => r.key)) (upsertRow w q) w := by
        by_cases hin : q.key ∈ qs'.map (fun r => r.key)
        · exact relTab_upsertRow_already hmemw (Or.inl hin)
        · refine relTab_upsertRow_already hmemw (Or.inr ?_)
          rw [hkey, hpay, hw]
          refine allKeyPayload_upsertBatch ?_ ps' ?_
          · rw [hv₁]
            exact allKeyPayload_upsertRow_self v p
          · intro r hr hrk
            apply hin
            rw [← sameInput_keys htail, hkey]
            exact List.mem_map.mpr ⟨r, hr, hrk⟩
      have hD := relTab_upsertBatch_shrink qs' hrel
      calc visibleTable (upsertBatch (upsertRow w q) qs')
          = visibleTable (upsertBatch w qs') := visibleTable_eq_of_relTab_nil hD
        _ = visibleTable w := ih v₁
  have hkeys := sameInput_keys h
  constructor
  · intro t₁ h₁
    unfold upsertStmt at h₁ ⊢
    by_cases hnd : (rs₁.map (fun r => r.key)).Nodup
    · rw [if_pos hnd] at h₁
      have ht₁ : t₁ = upsertBatch t rs₁ := (Option.some.inj h₁).symm
      have hnd₂ : (rs₂.map (fun r => r.key)).Nodup := hkeys ▸ hnd
      rw [if_pos hnd₂]
      refine ⟨rfl, ?_, ?_⟩
      · rw [ht₁]
        exact main h t
      · rw [ht₁]
        have := congrArg List.length (main h t)
        simpa [visibleTable] using this
    · rw [if_neg hnd] at h₁
      exact Option.noConfusion h₁
  · intro h₁
    unfold upsertStmt at h₁ ⊢
    by_cases hnd : (rs₁.map (fun r => r.key)).Nodup
    · rw [if_pos hnd] at h₁
      exact Option.noConfusion h₁
    · have hnd₂ : ¬ (rs₂.map (fun r => r.key)).Nodup := hkeys ▸ hnd
      rw [if_neg hnd₂]

/-- C1 counterexample: an offboard with no parseable date field gets the
wall clock of the run as `offboardDate`, a conflict-updated column; running
the job twice against this unchanged record rewrites the column with the
second wall clock, so the final tables differ in a non-`updatedAt` column
value. -/
theorem populate_job_idempotent_counterexample :
    offboard_date_column (fun _ => none) 1 none none none = 1 ∧
    offboard_date_column (fun _ => none) 2 none none none = 2 ∧
    upsertStmt ([] : List (DbRow Nat))
        [⟨"O1", offboard_date_column (fun _ => none) 1 none none none, 1, 1⟩] =
      some [⟨"O1", 1, 1, 1⟩] ∧
    upsertStmt [(⟨"O1", 1, 1, 1⟩ : DbRow Nat)]
        [⟨"O1", offboard_date_column (fun _ => none) 2 none none none, 2, 2⟩] =
      some [⟨"O1", 2, 1, 2⟩] ∧
    visibleTable [(⟨"O1", 2, 1, 2⟩ : DbRow Nat)] ≠
      visibleTable [(⟨"O1", 1, 1, 1⟩ : DbRow Nat)] := by
  exact ⟨rfl, rfl, by decide, by decide, by decide⟩

/-- Witness for the amended C1: a concrete employee-style row upserted
twice with fresh timestamps leaves the observable table unchanged. -/
theorem populate_job_idempotent_witness :
    SameInput [⟨"E1", "row", 1, 1⟩] [(⟨"E1", "row", 2, 2⟩ : DbRow String)] ∧
    upsertStmt ([] : List (DbRow String)) [⟨"E1", "row", 1, 1⟩] =
      some (upsertBatch [] [⟨"E1", "row", 1, 1⟩]) ∧
    visibleTable (upsertBatch (upsertBatch [] [⟨"E1", "row", 1, 1⟩])
        [(⟨"E1", "row", 2, 2⟩ : DbRow String)]) =
      visibleTable (upsertBatch ([] : List (DbRow String)) [⟨"E1", "row", 1, 1⟩]) := by
  have hs : SameInput [⟨"E1", "row", 1, 1⟩] [(⟨"E1", "row", 2, 2⟩ : DbRow String)] :=
    List.Forall₂.cons ⟨rfl, rfl⟩ List.Forall₂.nil
  have h := (populate_job_idempotent ([] : List (DbRow String)) _ _ hs).1
    (upsertBatch [] [⟨"E1", "row", 1, 1⟩]) (by decide)
  exact ⟨hs, by decide, h.2.1⟩

/-- C5 counterexample: an employee record with no name and no email is
persisted with `firstName = "***"` and `email = "***@***.com"`, which match
neither `<first-char>***` nor `<first-char>***@<domain>`, so the patterns
do not hold for all raw input values. -/
theorem redaction_pattern_counterexample :
    (transform_employee ⟨none, none, none, none, none⟩).firstName = "***" ∧
    ¬ MatchesMask "" (transform_employee ⟨none, none, none, none, none⟩).firstName ∧
    (transform_employee ⟨none, none, none, none, none⟩).email = "***@***.com" ∧
    ¬ MatchesEmailMask "" (transform_employee ⟨none, none, none, none, none⟩).email := by
  refine ⟨rfl, ?_, rfl, ?_⟩
  · rintro ⟨c, hc, -⟩
    exact Option.noConfusion hc
  · rintro ⟨c, lcl, dom, hsplit, -⟩
    exact Option.noConfusion hsplit

theorem matchesMask_redact : ∀ (s : String), s ≠ "" → MatchesMask s (redact_name s)
  | ⟨[]⟩, hne => absurd rfl hne
  | ⟨c :: _⟩, _ => ⟨c, rfl, rfl⟩

/-- C5 amended: for every employee record, a non-empty resolved raw name
yields `<first-char>***`, and a raw email with an `'@'` and a non-empty
local part yields `<first-char>***@<domain>`; otherwise the fixed fallbacks
`"***"`, `"***@***.com"` and `"***@" + domain` are produced. -/
theorem redaction_pattern_amended (e : RawEmployee) :
    (firstTruthy [e.first_name, e.firstName] ≠ "" →
      MatchesMask (firstTruthy [e.first_name, e.firstName])
        (transform_employee e).firstName) ∧
    (firstTruthy [e.last_name, e.lastName] ≠ "" →
      MatchesMask (firstTruthy [e.last_name, e.lastName])
        (transform_employee e).lastName) ∧
    (∀ c lcl dom,
      splitAtChar '@' (firstTruthy [e.email]).data = some (c :: lcl, dom) →
      MatchesEmailMask (firstTruthy [e.email]) (transform_employee e).email) ∧
    (firstTruthy [e.first_name, e.firstName] = "" →
      (transform_employee e).firstName = "***") ∧
    (splitAtChar '@' (firstTruthy [e.email]).data = none →
      (transform_employee e).email = "***@***.com") := by
  refine ⟨?_, ?_, ?_, ?_, ?_⟩
  · intro hne
    exact matchesMask_redact _ hne
  · intro hne
    exact matchesMask_redact _ hne
  · intro c lcl dom hsplit
    refine ⟨c, lcl, dom, hsplit, ?_⟩
    show (anonymize_email (firstTruthy [e.email])).data = _
    unfold anonymize_email
    rw [hsplit]
    simp
  · intro hz
    show redact_name (firstTruthy [e.first_name, e.firstName]) = "***"
    rw [hz]
    rfl
  · intro hn
    show anonymize_email (firstTruthy [e.email]) = "***@***.com"
    unfold anonymize_email
    rw [hn]

/-- Witness for the amended C5 at a concrete record. -/
theorem redaction_pattern_amended_witness :
    MatchesMask "John" (transform_employee
      ⟨some "John", none, some "Doe", none, some "john.doe@acme.com"⟩).firstName ∧
    MatchesEmailMask "john.doe@acme.com" (transform_employee
      ⟨some "John", none, some "Doe", none, some "john.doe@acme.com"⟩).email := by
  have h := redaction_pattern_amended
    ⟨some "John", none, some "Doe", none, some "john.doe@acme.com"⟩
  refine ⟨h.1 (by decide), ?_⟩
  exact h.2.2.1 'j' "ohn.doe".data "acme.com".data (by decide)

/-- C2 counterexample: an offboard record with no `employee_id` survives the
filter of `populate_offboards`, so the persisted table can contain a row
whose `employeeId` references no employee — the row is kept with a null
reference, not dropped. -/
theorem offboard_drop_counterexample :
    (populate_offboards_rows ["E1"] [offboardNoEmployee]).length = 1 ∧
    ¬ (∀ r ∈ populate_offboards_rows ["E1"] [offboardNoEmployee],
        ∃ e, r.employeeId = some e ∧ e ∈ ["E1"]) := by
  refine ⟨rfl, ?_⟩
  intro hall
  have hmem : transform_offboard offboardNoEmployee ∈
      populate_offboards_rows ["E1"] [offboardNoEmployee] := by decide
  rcases hall _ hmem with ⟨e, he, -⟩
  have hnone : (transform_offboard offboardNoEmployee).employeeId = none := rfl
  rw [hnone] at he
  exact Option.noConfusion he

/-- C2 amended: an offboard record whose `employeeId` is non-null but does
not reference an existing employee is dropped whole, while records with a
null or absent employee id are kept with a null reference; hence every
non-null `employeeId` in the persisted table references an existing
employee. -/
theorem offboard_filter_amended (valid : List String) (obs : List RawOffboard) :
    (∀ r ∈ populate_offboards_rows valid obs,
      ∀ e, r.employeeId = some e → e ∈ valid) ∧
    (∀ o ∈ obs, ∀ e, (transform_offboard o).employeeId = some e → e ∉ valid →
      transform_offboard o ∉ populate_offboards_rows valid obs) := by
  constructor
  · intro r hr e he
    have hp := (List.mem_filter.mp hr).2
    rw [he] at hp
    exact of_decide_eq_true hp
  · intro o _ e he hnv hmem
    have hp := (List.mem_filter.mp hmem).2
    rw [he] at hp
    exact hnv (of_decide_eq_true hp)

/-- Witness for the amended C2: an offboard referencing the unknown employee
`E9` is absent from the persisted batch. -/
theorem offboard_filter_amended_witness :
    transform_offboard
        { offboardNoEmployee with employee_id := some "E9" } ∉
      populate_offboards_rows ["E1"]
        [{ offboardNoEmployee with employee_id := some "E9" }] := by
  refine (offboard_filter_amended ["E1"]
      [{ offboardNoEmployee with employee_id := some "E9" }]).2
    _ (List.mem_singleton.mpr rfl) "E9" rfl ?_
  decide

/-- C10. For every raw offboard record, `returnedAssets` is true exactly
when `assets_count` is 0 or absent, or the record carries a non-empty
`assets` list in which every object entry has status `returned`, `received`
or `available`; it is false in all remaining cases. -/
theorem offboard_returned_assets (o : RawOffboard) :
    (transform_offboard o).returnedAssets = true ↔
      (o.assets_count.getD 0 = 0 ∨
        (o.assets ≠ [] ∧ ∀ st, AssetItem.obj st ∈ o.assets →
          st = some "returned" ∨ st = some "received" ∨ st = some "available")) := by
  show (let assets_count := o.assets_count.getD 0
    let ra₀ : Bool := assets_count = 0
    let ra₁ : Bool :=
      if o.assets.isEmpty then ra₀
      else if allAssetsReturned o.assets then true else ra₀
    ra₁) = true ↔ _
  simp only []
  by_cases hemp : o.assets.isEmpty
  · rw [if_pos hemp]
    have hnil : o.assets = [] := List.isEmpty_iff.mp hemp
    simp [hnil]
  · rw [if_neg hemp]
    have hne : o.assets ≠ [] := fun h => hemp (by rw [h]; rfl)
    by_cases hall : allAssetsReturned o.assets = true
    · rw [if_pos hall]
      simp only [true_iff]
      refine Or.inr ⟨hne, ?_⟩
      intro st hst
      have := List.all_eq_true.mp hall _ hst
      cases st with
      | none => simp [allAssetsReturned] at this
      | some s =>
        simp only [allAssetsReturned] at this
        rcases Bool.or_eq_true_iff.mp this with h | h
        · rcases Bool.or_eq_true_iff.mp h with h | h
          · exact Or.inl (by rw [of_decide_eq_true h])
          · exact Or.inr (Or.inl (by rw [of_decide_eq_true h]))
        · exact Or.inr (Or.inr (by rw [of_decide_eq_true h]))
    · rw [if_neg hall]
      constructor
      · intro hz
        exact Or.inl (of_decide_eq_true hz)
      · intro hor
        rcases hor with hz | ⟨-, hfor⟩
        · exact decide_eq_true hz
        · exfalso
          apply hall
          refine List.all_eq_true.mpr ?_
          intro a ha
          cases a with
          | other => rfl
          | obj st =>
            rcases hfor st ha with h | h | h <;> rw [h] <;> rfl

/-- C4. For every transformed asset row, at most one of `assignedToId`,
`officeId` and `warehouseId` is non-null: the `location_type` tag routes the
`location_id` into exactly one of the three columns. -/
theorem asset_location_exclusive (a : RawAsset) (d : Option LocationData) :
    ((transform_asset a d).assignedToId = none ∨
      (transform_asset a d).officeId = none) ∧
    ((transform_asset a d).assignedToId = none ∨
      (transform_asset a d).warehouseId = none) ∧
    ((transform_asset a d).officeId = none ∨
      (transform_asset a d).warehouseId = none) := by
  unfold transform_asset
  rcases d with - | ld
  · rcases a.location with - | ld
    · exact ⟨Or.inl rfl, Or.inl rfl, Or.inl rfl⟩
    · by_cases he : ld.location_type = some "employee"
      · have ho : ld.location_type ≠ some "office" := by rw [he]; decide
        have hw : ld.location_type ≠ some "warehouse" := by rw [he]; decide
        simp [he, ho, hw]
      · by_cases ho : ld.location_type = some "office"
        · have hw : ld.location_type ≠ some "warehouse" := by rw [ho]; decide
          simp [he, ho, hw]
        · by_cases hw : ld.location_type = some "warehouse"
          · simp [he, ho, hw]
          · simp [he, ho, hw]
  · by_cases he : ld.location_type = some "employee"
    · have ho : ld.location_type ≠ some "office" := by rw [he]; decide
      have hw : ld.location_type ≠ some "warehouse" := by rw [he]; decide
      simp [he, ho, hw]
    · by_cases ho : ld.location_type = some "office"
      · have hw : ld.location_type ≠ some "warehouse" := by rw [ho]; decide
        simp [he, ho, hw]
      · by_cases hw : ld.location_type = some "warehouse"
        · simp [he, ho, hw]
        · simp [he, ho, hw]

/-- C3. The foreign-key validation of `populate_assets` maps every row
whose office (resp. warehouse) reference is non-null but not among the
fetched ids to the same row with that reference nulled, leaves valid and
null references unchanged, counts exactly the invalid references, and keeps
every row (a dangling reference never aborts the batch). -/
theorem asset_fk_validation (offIds whIds : List String) (rows : List AssetRow)
    (hne : ∀ r ∈ rows, r.officeId ≠ some "" ∧ r.warehouseId ≠ some "") :
    (validate_assets offIds whIds rows).1 = rows.map (fun r =>
      { r with
        officeId := match r.officeId with
          | some s => if s ∈ offIds then some s else none
          | none => none
        warehouseId := match r.warehouseId with
          | some s => if s ∈ whIds then some s else none
          | none => none }) ∧
    (validate_assets offIds whIds rows).2.1 = rows.countP (fun r =>
      match r.officeId with
      | some s => decide (s ∉ offIds)
      | none => false) ∧
    (validate_assets offIds whIds rows).2.2 = rows.countP (fun r =>
      match r.warehouseId with
      | some s => decide (s ∉ whIds)
      | none => false) ∧
    (validate_assets offIds whIds rows).1.length = rows.length := by
  induction rows with
  | nil => exact ⟨rfl, rfl, rfl, rfl⟩
  | cons r rest ih =>
    obtain ⟨hro, hrw⟩ := hne r (List.mem_cons_self r rest)
    obtain ⟨ih1, ih2, ih3, ih4⟩ :=
      ih (fun x hx => hne x (List.mem_cons_of_mem r hx))
    have hbo : pyTruthyNotIn r.officeId offIds =
        (match r.officeId with
          | some s => decide (s ∉ offIds)
          | none => false) := by
      unfold pyTruthyNotIn
      cases hofc : r.officeId with
      | none => rfl
      | some s =>
        have hs : s ≠ "" := by
          intro h
          exact hro (by rw [hofc, h])
        by_cases hmem : s ∈ offIds <;> simp [hs, hmem]
    have hbw : pyTruthyNotIn r.warehouseId whIds =
        (match r.warehouseId with
          | some s => decide (s ∉ whIds)
          | none => false) := by
      unfold pyTruthyNotIn
      cases hwfc : r.warehouseId with
      | none => rfl
      | some s =>
        have hs : s ≠ "" := by
          intro h
          exact hrw (by rw [hwfc, h])
        by_cases hmem : s ∈ whIds <;> simp [hs, hmem]
    refine ⟨?_, ?_, ?_, ?_⟩
    · show _ :: (validate_assets offIds whIds rest).1 = _ :: _
      rw [ih1]
      congr 1
      rw [hbo, hbw]
      simp only []
      cases hofc : r.officeId with
      | none =>
        cases hwfc : r.warehouseId with
        | none => simp
        | some s2 => by_cases hsw : s2 ∈ whIds <;> simp [hsw]
      | some s =>
        cases hwfc : r.warehouseId with
        | none => by_cases hso : s ∈ offIds <;> simp [hso]
        | some s2 =>
          by_cases hso : s ∈ offIds <;> by_cases hsw : s2 ∈ whIds <;>
            simp [hso, hsw]
    · show (if pyTruthyNotIn r.officeId offIds then 1 else 0) +
        (validate_assets offIds whIds rest).2.1 = _
      rw [ih2, hbo, List.countP_cons, Nat.add_comm]
    · show (if pyTruthyNotIn r.warehouseId whIds then 1 else 0) +
        (validate_assets offIds whIds rest).2.2 = _
      rw [ih3, hbw, List.countP_cons, Nat.add_comm]
    · show ((validate_assets offIds whIds rest).1.length) + 1 = _
      rw [ih4, List.length_cons]

/-- Witness for C3: the specification example — an asset referencing the
non-existent warehouse `W99` is persisted with `warehouseId` nulled and the
invalid-warehouse counter at 1. -/
theorem asset_fk_validation_witness :
    (∀ r ∈ [w99asset], r.officeId ≠ some "" ∧ r.warehouseId ≠ some "") ∧
    (validate_assets ["O1"] ["W1"] [w99asset]).1 =
      [{ w99asset with warehouseId := none }] ∧
    (validate_assets ["O1"] ["W1"] [w99asset]).2.2 = 1 := by
  have hne : ∀ r ∈ [w99asset], r.officeId ≠ some "" ∧ r.warehouseId ≠ some "" := by
    decide
  have h := asset_fk_validation ["O1"] ["W1"] [w99asset] hne
  exact ⟨hne, h.1.trans (by decide), h.2.2.1.trans (by decide)⟩

theorem codes_upsertCountryRow (t : List CountryRow) (r : CountryRow)
    (h : (countryCodes t).Nodup) :
    (countryCodes (upsertCountryRow t r)).Nodup := by
  unfold upsertCountryRow
  by_cases hmem : t.any (fun x => x.code == r.code) = true
  · rw [if_pos hmem]
    have heq : countryCodes (t.map (fun x => if x.code == r.code then
        { x with name := r.name, requiresTin := r.requiresTin,
                 invoiceCurrency := r.invoiceCurrency,
                 isOffboardable := r.isOffboardable,
                 updatedAt := r.updatedAt }
        else x)) = countryCodes t := by
      unfold countryCodes
      rw [List.map_map]
      refine List.map_congr_left ?_
      intro x _
      show (if (x.code == r.code) = true then _ else x).code = x.code
      by_cases hx : (x.code == r.code) = true
      · rw [if_pos hx]
      · rw [if_neg hx]
    rw [heq]
    exact h
  · rw [if_neg hmem]
    unfold countryCodes
    rw [List.map_append]
    have hnot : r.code ∉ t.map (fun x => x.code) := by
      intro hr
      rcases List.mem_map.mp hr with ⟨x, hx, hxc⟩
      exact hmem (List.any_eq_true.mpr ⟨x, hx, beq_iff_eq.mpr hxc⟩)
    simp only [List.map_cons, List.map_nil]
    refine List.Nodup.append h (List.nodup_singleton _) ?_
    intro a ha hb
    rw [List.mem_singleton.mp hb] at ha
    exact hnot ha

theorem codes_upsertCountryBatch (rows : List CountryRow) (t : List CountryRow)
    (h : (countryCodes t).Nodup) :
    (countryCodes (rows.foldl upsertCountryRow t)).Nodup := by
  induction rows generalizing t with
  | nil => exact h
  | cons r rest ih =>
    exact ih (upsertCountryRow t r) (codes_upsertCountryRow t r h)

/-- C7 counterexample: two fetched records with different external ids and
the same code `NL` both survive the id-keyed dedup, so the single
`INSERT ... ON CONFLICT (code)` statement hits the code twice — the job
aborts with a cardinality violation and writes nothing, rather than
collapsing the two rows to one persisted row. -/
theorem country_code_collapse_counterexample :
    collect_unique_countries
      [{ id := "1", name := "Netherlands", code := "NL", requires_tin := false,
         invoice_currency := none, is_offboardable := true },
       { id := "2", name := "Nederland", code := "NL", requires_tin := false,
         invoice_currency := none, is_offboardable := true }] =
      [{ id := "1", name := "Netherlands", code := "NL", requires_tin := false,
         invoice_currency := none, is_offboardable := true },
       { id := "2", name := "Nederland", code := "NL", requires_tin := false,
         invoice_currency := none, is_offboardable := true }] ∧
    populate_countries [] 5 (collect_unique_countries
      [{ id := "1", name := "Netherlands", code := "NL", requires_tin := false,
         invoice_currency := none, is_offboardable := true },
       { id := "2", name := "Nederland", code := "NL", requires_tin := false,
         invoice_currency := none, is_offboardable := true }]) = none := by
  exact ⟨by decide, by decide⟩

/-- C7 amended. The countries upsert is keyed on `code`: when the
single-statement batch write succeeds, a table whose codes are unique stays
unique by code, and a record whose code is already present updates the
existing row in place (no new row), so an external id arriving in a later
run with an already-stored code collapses into the stored row; a single
batch carrying two different ids with the same code instead aborts with a
cardinality violation and writes nothing. -/
theorem country_code_unique (t : List CountryRow) (now : Nat)
    (cs : List CountryData) (t' : List CountryRow)
    (h : (countryCodes t).Nodup)
    (hrun : populate_countries t now (collect_unique_countries cs) = some t') :
    (countryCodes t').Nodup ∧
    (∀ r : CountryRow, r.code ∈ countryCodes t →
      (upsertCountryRow t r).length = t.length) := by
  constructor
  · unfold populate_countries at hrun
    by_cases hnd : (((collect_unique_countries cs).map (fun c =>
        ({ id := c.id, name := c.name, code := c.code,
           requiresTin := c.requires_tin, invoiceCurrency := c.invoice_currency,
           isOffboardable := c.is_offboardable, createdAt := now,
           updatedAt := now } : CountryRow))).map (fun r => r.code)).Nodup
    · rw [if_pos hnd] at hrun
      rw [← Option.some.inj hrun]
      exact codes_upsertCountryBatch _ t h
    · rw [if_neg hnd] at hrun
      exact Option.noConfusion hrun
  · intro r hr
    unfold upsertCountryRow
    have hmem : (t.any fun x => x.code == r.code) = true := by
      rcases List.mem_map.mp hr with ⟨x, hx, hxc⟩
      exact List.any_eq_true.mpr ⟨x, hx, beq_iff_eq.mpr hxc⟩
    rw [if_pos hmem, List.length_map]

/-- Witness for the amended C7: a later run carrying a different external
id with the already-stored code `NL` updates the stored row in place — one
row, unique codes, identity columns kept. -/
theorem country_code_unique_witness :
    (countryCodes [({ id := "1", name := "Netherlands", code := "NL",
                      requiresTin := false, invoiceCurrency := none,
                      isOffboardable := true, createdAt := 3,
                      updatedAt := 3 } : CountryRow)]).Nodup ∧
    populate_countries
      [{ id := "1", name := "Netherlands", code := "NL", requiresTin := false,
         invoiceCurrency := none, isOffboardable := true, createdAt := 3,
         updatedAt := 3 }] 7
      (collect_unique_countries
        [{ id := "2", name := "Nederland", code := "NL", requires_tin := false,
           invoice_currency := none, is_offboardable := true }]) =
      some [{ id := "1", name := "Nederland", code := "NL", requiresTin := false,
              invoiceCurrency := none, isOffboardable := true, createdAt := 3,
              updatedAt := 7 }] ∧
    (countryCodes [({ id := "1", name := "Nederland", code := "NL",
                      requiresTin := false, invoiceCurrency := none,
                      isOffboardable := true, createdAt := 3,
                      updatedAt := 7 } : CountryRow)]).Nodup := by
  refine ⟨by decide, by decide, ?_⟩
  exact (country_code_unique
    [{ id := "1", name := "Netherlands", code := "NL", requiresTin := false,
       invoiceCurrency := none, isOffboardable := true, createdAt := 3,
       updatedAt := 3 }] 7
    [{ id := "2", name := "Nederland", code := "NL", requires_tin := false,
       invoice_currency := none, is_offboardable := true }]
    [{ id := "1", name := "Nederland", code := "NL", requiresTin := false,
       invoiceCurrency := none, isOffboardable := true, createdAt := 3,
       updatedAt := 7 }] (by decide) (by decide)).1

/-- C8 counterexample: a page carrying a present but zero `meta.last_page`
with `current_page ≥ last_page` and a `links.next` value makes the claimed
rule stop, but the code treats the falsy `last_page` as absent and issues a
second request. -/
theorem pagination_stop_counterexample :
    claimStop 1 (some 0) (some "p2") = true ∧
    stop_condition 1 (some 0) (some "p2") = false ∧
    fetch_collection synthZeroLastPage 10 = ([9], 2) := by
  refine ⟨rfl, rfl, by decide⟩

/-- C8 amended: the fetcher requests pages 1, 2, … and stops exactly when
`links.next` is absent or empty, or when `meta.last_page` is present,
non-zero, and `current_page ≥ last_page`; a bare-array response stops after
one page, and on the synthetic 3-pages-of-2 source with `last_page = 3` it
returns exactly 6 items in 3 requests. -/
theorem pagination_termination_amended :
    (∀ (current : Int) (last_page : Option Int) (next : Option String),
      stop_condition current last_page next =
        claimStopAmended current last_page next) ∧
    fetch_collection synthThreePages 10 = ([1, 2, 3, 4, 5, 6], 3) ∧
    fetch_collection (fun _ => PageData.arr [7, 8]) 10 = ([7, 8], 1) := by
  refine ⟨?_, by decide, by decide⟩
  intro current lp nxt
  unfold stop_condition claimStopAmended
  cases lp with
  | none => rfl
  | some l =>
    show ((match nxt with | some s => s == "" | none => true) ||
        (if l = 0 then false else decide (current ≥ l))) =
      ((match nxt with | some s => s == "" | none => true) ||
        (!(l == 0) && decide (current ≥ l)))
    by_cases hl : l = 0
    · subst hl
      simp
    · have hbeq : (l == 0) = false := by
        rw [Bool.eq_false_iff]
        intro hc
        exact hl (eq_of_beq hc)
      rw [if_neg hl, hbeq]
      simp

/-- C9 counterexample: a 404 on the employees collection endpoint is
propagated as a hard failure (not an empty sequence), and a 500 on the
offices collection endpoint yields an empty sequence (not a hard
failure). -/
theorem fetch_404_counterexample :
    fetch_employees synth404 10 = .error 404 ∧
    fetch_offices synth500 10 = ([] : List Nat) := by
  exact ⟨rfl, rfl⟩

/-- C9 amended: the employees fetch propagates every non-2xx response — 404
included — as a hard failure, while the offices fetch yields an empty
sequence both on 404 and on any other non-2xx response. -/
theorem fetch_error_amended {α : Type} (src : Int → Nat × PageData α)
    (fuel : Nat) :
    (400 ≤ (src 1).1 → fetch_employees src (fuel + 1) = .error (src 1).1) ∧
    ((src 1).1 = 404 → fetch_offices src (fuel + 1) = []) ∧
    (400 ≤ (src 1).1 → fetch_offices src (fuel + 1) = []) := by
  refine ⟨?_, ?_, ?_⟩
  · intro h
    show fetchEmployeesGo src (fuel + 1) 1 [] = _
    unfold fetchEmployeesGo
    simp only [if_pos h]
  · intro h
    show fetchOfficesGo src (fuel + 1) 1 [] = _
    unfold fetchOfficesGo
    simp only [if_pos h]
  · intro h
    show fetchOfficesGo src (fuel + 1) 1 [] = _
    unfold fetchOfficesGo
    by_cases h404 : (src 1).1 = 404
    · simp only [if_pos h404]
    · simp only [if_neg h404, if_pos h]

/-- Witness for the amended C9 at the 404 and 500 sources. -/
theorem fetch_error_amended_witness :
    fetch_employees synth404 10 = .error (synth404 1).1 ∧
    fetch_offices synth404 10 = ([] : List Nat) ∧
    fetch_offices synth500 10 = ([] : List Nat) := by
  have h404 := fetch_error_amended synth404 9
  have h500 := fetch_error_amended synth500 9
  exact ⟨h404.1 (by decide), h404.2.1 (by decide), h500.2.2 (by decide)⟩

/-! Context-helper lemmas. -/

theorem ctxHead_append (a b : List Char) (d : Bool) :
    ctxHead (a ++ b) d = ctxHead a (ctxHead b d) := by
  cases a <;> cases b <;> rfl

theorem ctxLast_cons (c : Char) (u : List Char) (d : Bool) :
    ctxLast (c :: u) d = ctxLast u (isWordChar c) := rfl

theorem ctxLast_append (a b : List Char) (d : Bool) :
    ctxLast (a ++ b) d = ctxLast b (ctxLast a d) := by
  induction a generalizing d with
  | nil => rfl
  | cons c us ih => simp [ctxLast_cons, ih]

theorem ctxLast_ne_nil (u : List Char) (hu : u ≠ []) (d d' : Bool) :
    ctxLast u d = ctxLast u d' := by
  cases u with
  | nil => exact absurd rfl hu
  | cons c us => rfl

theorem lastOpt_cons (c : Char) (u : List Char) (prev : Option Char) :
    lastOpt (c :: u) prev = lastOpt u (some c) := rfl

theorem lastOpt_append (a b : List Char) (prev : Option Char) :
    lastOpt (a ++ b) prev = lastOpt b (lastOpt a prev) := by
  induction a generalizing prev with
  | nil => rfl
  | cons c us ih => simp [lastOpt_cons, ih]

theorem lastOpt_ne_nil (u : List Char) (hu : u ≠ []) (p p' : Option Char) :
    lastOpt u p = lastOpt u p' := by
  cases u with
  | nil => exact absurd rfl hu
  | cons c us => rfl

theorem wsOpt_lastOpt (u : List Char) (prev : Option Char) :
    wsOpt (lastOpt u prev) = ctxLast u (wsOpt prev) := by
  induction u generalizing prev with
  | nil => rfl
  | cons c us ih => simpa [lastOpt_cons, ctxLast_cons] using ih (some c)

theorem lastOpt_mem (u : List Char) (x : Char)
    (h : lastOpt u none = some x) : x ∈ u := by
  induction u with
  | nil => exact Option.noConfusion h
  | cons c us ih =>
    rw [lastOpt_cons] at h
    cases us with
    | nil => exact (Option.some.inj h) ▸ List.mem_singleton_self x
    | cons c' us' =>
      rw [lastOpt_ne_nil (c' :: us') (by simp) (some c) none] at h
      exact List.mem_cons_of_mem c (ih h)

theorem lastOpt_exists (u : List Char) (hu : u ≠ []) :
    ∃ x, lastOpt u none = some x := by
  induction u with
  | nil => exact absurd rfl hu
  | cons c us ih =>
    cases us with
    | nil => exact ⟨c, rfl⟩
    | cons c' us' =>
      obtain ⟨x, hx⟩ := ih (by simp)
      refine ⟨x, ?_⟩
      rw [lastOpt_cons, lastOpt_ne_nil (c' :: us') (by simp) (some c) none]
      exact hx

theorem ctxLast_of_lastOpt (u : List Char) (x : Char)
    (h : lastOpt u none = some x) (d : Bool) :
    ctxLast u d = isWordChar x := by
  induction u generalizing d with
  | nil => exact Option.noConfusion h
  | cons c us ih =>
    rw [lastOpt_cons] at h
    cases us with
    | nil =>
      obtain rfl := Option.some.inj h
      rfl
    | cons c' us' =>
      rw [lastOpt_ne_nil (c' :: us') (by simp) (some c) none] at h
      rw [ctxLast_cons, ctxLast_ne_nil (c' :: us') (by simp) (isWordChar c) d]
      exact ih h d

/-! Reduction shapes of `matchM`, one per regex constructor. -/

theorem matchM_eps {α : Type} (n : Nat) (prev : Option Char) (s : List Char)
    (k : Option Char → List Char → Option α) :
    matchM (n + 1) .eps prev s k = k prev s := rfl

theorem matchM_wb {α : Type} (n : Nat) (prev : Option Char) (s : List Char)
    (k : Option Char → List Char → Option α) :
    matchM (n + 1) .wb prev s k =
      if (wsOpt prev != ctxHead s false) = true then k prev s else none := by
  cases prev <;> cases s <;> rfl

theorem matchM_cls {α : Type} (n : Nat) (p : Char → Bool)
    (prev : Option Char) (s : List Char)
    (k : Option Char → List Char → Option α) :
    matchM (n + 1) (.cls p) prev s k =
      match s with
      | c :: rest => if p c then k (some c) rest else none
      | [] => none := rfl

theorem matchM_seq {α : Type} (n : Nat) (a b : RE) (prev : Option Char)
    (s : List Char) (k : Option Char → List Char → Option α) :
    matchM (n + 1) (.seq a b) prev s k =
      matchM n a prev s (fun p₁ s₁ => matchM n b p₁ s₁ k) := rfl

theorem matchM_alt {α : Type} (n : Nat) (a b : RE) (prev : Option Char)
    (s : List Char) (k : Option Char → List Char → Option α) :
    matchM (n + 1) (.alt a b) prev s k =
      match matchM n a prev s k with
      | some r => some r
      | none => matchM n b prev s k := rfl

theorem matchM_repS {α : Type} (n : Nat) (a : RE) (l : Nat)
    (hi : Option Nat) (prev : Option Char) (s : List Char)
    (k : Option Char → List Char → Option α) :
    matchM (n + 1) (.rep a (l + 1) hi) prev s k =
      matchM n a prev s (fun p₁ s₁ =>
        matchM n (.rep a l (predHi hi)) p₁ s₁ k) := rfl

theorem matchM_rep0s {α : Type} (n : Nat) (a : RE) (prev : Option Char)
    (s : List Char) (k : Option Char → List Char → Option α) :
    matchM (n + 1) (.rep a 0 (some 0)) prev s k = k prev s := rfl

theorem matchM_rep0n {α : Type} (n : Nat) (a : RE) (prev : Option Char)
    (s : List Char) (k : Option Char → List Char → Option α) :
    matchM (n + 1) (.rep a 0 none) prev s k =
      match matchM n a prev s (fun p₁ s₁ =>
          matchM n (.rep a 0 (predHi none)) p₁ s₁ k) with
      | some r => some r
      | none => k prev s := rfl

theorem matchM_rep0g {α : Type} (n : Nat) (a : RE) (h : Nat)
    (prev : Option Char) (s : List Char)
    (k : Option Char → List Char → Option α) :
    matchM (n + 1) (.rep a 0 (some (h + 1))) prev s k =
      match matchM n a prev s (fun p₁ s₁ =>
          matchM n (.rep a 0 (predHi (some (h + 1)))) p₁ s₁ k) with
      | some r => some r
      | none => k prev s := rfl
/-- Soundness of the backtracking matcher: a successful run consumes a
prefix `u` that matches declaratively, and hands the continuation the last
consumed character and the remainder. -/
theorem matchM_sound {α : Type} :
    ∀ (n : Nat) (re : RE) (prev : Option Char) (s : List Char)
      (k : Option Char → List Char → Option α) (r : α),
      matchM n re prev s k = some r →
      ∃ u rest, s = u ++ rest ∧
        DMatch n re (wsOpt prev) u (ctxHead rest false) ∧
        k (lastOpt u prev) rest = some r := by
  intro n
  induction n with
  | zero =>
    intro re prev s k r h
    exact Option.noConfusion h
  | succ n ih =>
    intro re prev s k r h
    cases re with
    | eps => exact ⟨[], s, rfl, DMatch.eps, h⟩
    | wb =>
      rw [matchM_wb] at h
      by_cases hc : (wsOpt prev != ctxHead s false) = true
      · rw [if_pos hc] at h
        exact ⟨[], s, rfl, DMatch.wb (bne_iff_ne.mp hc), h⟩
      · rw [if_neg hc] at h
        exact Option.noConfusion h
    | cls p =>
      rw [matchM_cls] at h
      cases s with
      | nil => exact Option.noConfusion h
      | cons c rest =>
        have h' : (if p c = true then k (some c) rest else none) = some r := h
        by_cases hp : p c = true
        · rw [if_pos hp] at h'
          exact ⟨[c], rest, rfl, DMatch.cls hp, h'⟩
        · rw [if_neg hp] at h'
          exact Option.noConfusion h' 
    | seq a b =>
      rw [matchM_seq] at h
      obtain ⟨u₁, rest₁, hs₁, hd₁, hk₁⟩ := ih a prev s _ r h
      obtain ⟨u₂, rest₂, hs₂, hd₂, hk₂⟩ := ih b (lastOpt u₁ prev) rest₁ k r hk₁
      refine ⟨u₁ ++ u₂, rest₂, by rw [hs₁, hs₂, List.append_assoc], ?_, ?_⟩
      · refine DMatch.seq ?_ ?_
        · rw [show ctxHead u₂ (ctxHead rest₂ false) = ctxHead rest₁ false by
            rw [hs₂, ctxHead_append]]
          exact hd₁
        · rw [← wsOpt_lastOpt]
          exact hd₂
      · rw [lastOpt_append]
        exact hk₂
    | alt a b =>
      rw [matchM_alt] at h
      cases ha : matchM n a prev s k with
      | some v =>
        rw [ha] at h
        obtain ⟨u, rest, hs, hd, hk⟩ := ih a prev s k v ha
        exact ⟨u, rest, hs, DMatch.altl hd, h ▸ hk⟩
      | none =>
        rw [ha] at h
        obtain ⟨u, rest, hs, hd, hk⟩ := ih b prev s k r h
        exact ⟨u, rest, hs, DMatch.altr hd, hk⟩
    | rep a lo hi =>
      cases lo with
      | succ l =>
        rw [matchM_repS] at h
        obtain ⟨u₁, rest₁, hs₁, hd₁, hk₁⟩ := ih a prev s _ r h
        obtain ⟨u₂, rest₂, hs₂, hd₂, hk₂⟩ :=
          ih (.rep a l (predHi hi)) (lastOpt u₁ prev) rest₁ k r hk₁
        refine ⟨u₁ ++ u₂, rest₂, by rw [hs₁, hs₂, List.append_assoc], ?_, ?_⟩
        · refine DMatch.repS ?_ ?_
          · rw [show ctxHead u₂ (ctxHead rest₂ false) = ctxHead rest₁ false by
              rw [hs₂, ctxHead_append]]
            exact hd₁
          · rw [← wsOpt_lastOpt]
            exact hd₂
        · rw [lastOpt_append]
          exact hk₂
      | zero =>
        cases hi with
        | none =>
          rw [matchM_rep0n] at h
          cases hg : matchM n a prev s (fun p₁ s₁ =>
              matchM n (.rep a 0 (predHi none)) p₁ s₁ k) with
          | some v =>
            rw [hg] at h
            obtain ⟨u₁, rest₁, hs₁, hd₁, hk₁⟩ := ih a prev s _ v hg
            obtain ⟨u₂, rest₂, hs₂, hd₂, hk₂⟩ :=
              ih (.rep a 0 (predHi none)) (lastOpt u₁ prev) rest₁ k v hk₁
            refine ⟨u₁ ++ u₂, rest₂, by rw [hs₁, hs₂, List.append_assoc],
              ?_, ?_⟩
            · refine DMatch.repG (by simp) ?_ ?_
              · rw [show ctxHead u₂ (ctxHead rest₂ false) = ctxHead rest₁ false
                  by rw [hs₂, ctxHead_append]]
                exact hd₁
              · rw [← wsOpt_lastOpt]
                exact hd₂
            · rw [lastOpt_append, hk₂]
              exact h
          | none =>
            rw [hg] at h
            exact ⟨[], s, rfl, DMatch.rep0, h⟩
        | some hb =>
          cases hb with
          | zero =>
            rw [matchM_rep0s] at h
            exact ⟨[], s, rfl, DMatch.rep0, h⟩
          | succ hb' =>
            rw [matchM_rep0g] at h
            cases hg : matchM n a prev s (fun p₁ s₁ =>
                matchM n (.rep a 0 (predHi (some (hb' + 1)))) p₁ s₁ k) with
            | some v =>
              rw [hg] at h
              obtain ⟨u₁, rest₁, hs₁, hd₁, hk₁⟩ := ih a prev s _ v hg
              obtain ⟨u₂, rest₂, hs₂, hd₂, hk₂⟩ :=
                ih (.rep a 0 (predHi (some (hb' + 1)))) (lastOpt u₁ prev)
                  rest₁ k v hk₁
              refine ⟨u₁ ++ u₂, rest₂, by rw [hs₁, hs₂, List.append_assoc],
                ?_, ?_⟩
              · refine DMatch.repG (by simp) ?_ ?_
                · rw [show ctxHead u₂ (ctxHead rest₂ false) =
                      ctxHead rest₁ false by rw [hs₂, ctxHead_append]]
                  exact hd₁
                · rw [← wsOpt_lastOpt]
                  exact hd₂
              · rw [lastOpt_append, hk₂]
                exact h
            | none =>
              rw [hg] at h
              exact ⟨[], s, rfl, DMatch.rep0, h⟩
/-- Completeness of the backtracking matcher: a declarative match of `u`
whose continuation succeeds makes the matcher succeed on `u ++ rest`. -/
theorem matchM_complete {α : Type} {n : Nat} {re : RE} {pw : Bool}
    {u : List Char} {nw : Bool} (h : DMatch n re pw u nw) :
    ∀ (prev : Option Char) (rest : List Char)
      (k : Option Char → List Char → Option α),
      wsOpt prev = pw → ctxHead rest false = nw →
      k (lastOpt u prev) rest ≠ none →
      matchM n re prev (u ++ rest) k ≠ none := by
  induction h with
  | eps =>
    intro prev rest k hp hc hk
    rw [matchM_eps]
    exact hk
  | wb hne =>
    intro prev rest k hp hc hk
    rw [List.nil_append, matchM_wb,
      if_pos (bne_iff_ne.mpr (by rw [hp, hc]; exact hne))]
    exact hk
  | cls hpc =>
    intro prev rest k hp hc hk
    rw [matchM_cls]
    show (if _ then _ else _) ≠ none
    rw [if_pos hpc]
    exact hk
  | seq hd₁ hd₂ ih₁ ih₂ =>
    intro prev rest k hp hc hk
    rw [List.append_assoc, matchM_seq]
    refine ih₁ prev _ _ hp ?_ ?_
    · rw [ctxHead_append, hc]
    · refine ih₂ (lastOpt _ prev) rest k ?_ hc ?_
      · rw [wsOpt_lastOpt, hp]
      · rw [← lastOpt_append]
        exact hk
  | altl hd ih =>
    intro prev rest k hp hc hk
    rw [matchM_alt]
    cases ha : matchM _ _ prev (_ ++ rest) k with
    | some v => simp
    | none => exact absurd ha (ih prev rest k hp hc hk)
  | altr hd ih =>
    intro prev rest k hp hc hk
    rw [matchM_alt]
    cases ha : matchM _ _ prev (_ ++ rest) k with
    | some v => simp
    | none =>
      show matchM _ _ prev (_ ++ rest) k ≠ none
      exact ih prev rest k hp hc hk
  | repS hd₁ hd₂ ih₁ ih₂ =>
    intro prev rest k hp hc hk
    rw [List.append_assoc, matchM_repS]
    refine ih₁ prev _ _ hp ?_ ?_
    · rw [ctxHead_append, hc]
    · refine ih₂ (lastOpt _ prev) rest k ?_ hc ?_
      · rw [wsOpt_lastOpt, hp]
      · rw [← lastOpt_append]
        exact hk
  | rep0 =>
    intro prev rest k hp hc hk
    rename_i n' a hi pw' nw'
    cases hi with
    | none =>
      rw [List.nil_append, matchM_rep0n]
      cases hg : matchM n' a prev rest (fun p₁ s₁ =>
          matchM n' (.rep a 0 (predHi none)) p₁ s₁ k) with
      | some v => simp
      | none => exact hk
    | some hb =>
      cases hb with
      | zero =>
        rw [List.nil_append, matchM_rep0s]
        exact hk
      | succ hb' =>
        rw [List.nil_append, matchM_rep0g]
        cases hg : matchM n' a prev rest (fun p₁ s₁ =>
            matchM n' (.rep a 0 (predHi (some (hb' + 1)))) p₁ s₁ k) with
        | some v => simp
        | none => exact hk
  | repG hne hd₁ hd₂ ih₁ ih₂ =>
    intro prev rest k hp hc hk
    rename_i n' a hi pw' nw' u₁ u₂
    have hgo : matchM n' a prev ((u₁ ++ u₂) ++ rest) (fun p₁ s₁ =>
        matchM n' (.rep a 0 (predHi hi)) p₁ s₁ k) ≠ none := by
      rw [List.append_assoc]
      refine ih₁ prev _ _ hp ?_ ?_
      · rw [ctxHead_append, hc]
      · refine ih₂ (lastOpt u₁ prev) rest k ?_ hc ?_
        · rw [wsOpt_lastOpt, hp]
        · rw [← lastOpt_append]
          exact hk
    cases hi with
    | none =>
      rw [matchM_rep0n]
      cases hg : matchM n' a prev ((u₁ ++ u₂) ++ rest) (fun p₁ s₁ =>
          matchM n' (.rep a 0 (predHi none)) p₁ s₁ k) with
      | some v => simp
      | none => exact absurd hg hgo
    | some hb =>
      cases hb with
      | zero => exact absurd rfl hne
      | succ hb' =>
        rw [matchM_rep0g]
        cases hg : matchM n' a prev ((u₁ ++ u₂) ++ rest) (fun p₁ s₁ =>
            matchM n' (.rep a 0 (predHi (some (hb' + 1)))) p₁ s₁ k) with
        | some v => simp
        | none => exact absurd hg hgo
theorem startWB_ctx {n : Nat} {re : RE} {pw : Bool} {u : List Char}
    {nw : Bool} (hd : DMatch n re pw u nw) (hs : StartWB re) :
    pw ≠ ctxHead u nw := by
  revert hs
  induction hd with
  | eps => intro hs; cases hs
  | wb hne => intro hs; exact hne
  | cls hpc => intro hs; cases hs
  | seq hd₁ hd₂ ih₁ ih₂ =>
    intro hs
    cases hs with
    | seql h =>
      rw [ctxHead_append]
      exact ih₁ h
  | altl hd ih => intro hs; cases hs
  | altr hd ih => intro hs; cases hs
  | repS hd₁ hd₂ ih₁ ih₂ => intro hs; cases hs
  | rep0 => intro hs; cases hs
  | repG hne hd₁ hd₂ ih₁ ih₂ => intro hs; cases hs

theorem endWB_ctx {n : Nat} {re : RE} {pw : Bool} {u : List Char}
    {nw : Bool} (hd : DMatch n re pw u nw) (he : EndWB re) :
    ctxLast u pw ≠ nw := by
  revert he
  induction hd with
  | eps => intro he; cases he
  | wb hne => intro he; exact hne
  | cls hpc => intro he; cases he
  | seq hd₁ hd₂ ih₁ ih₂ =>
    intro he
    cases he with
    | seqr h =>
      rw [ctxLast_append]
      exact ih₂ h
    | seqe h =>
      cases hd₂
      rw [List.append_nil]
      exact ih₁ h
  | altl hd ih => intro he; cases he
  | altr hd ih => intro he; cases he
  | repS hd₁ hd₂ ih₁ ih₂ => intro he; cases he
  | rep0 => intro he; cases he
  | repG hne hd₁ hd₂ ih₁ ih₂ => intro he; cases he

theorem reqC_mem {n : Nat} {re : RE} {pw : Bool} {u : List Char} {nw : Bool}
    {req : Char → Bool} (hd : DMatch n re pw u nw) (hr : ReqC re req) :
    ∃ c, c ∈ u ∧ req c = true := by
  revert hr
  induction hd with
  | eps => intro hr; cases hr
  | wb hne => intro hr; cases hr
  | cls hpc =>
    intro hr
    cases hr with
    | cls himp => exact ⟨_, List.mem_singleton_self _, himp _ hpc⟩
  | seq hd₁ hd₂ ih₁ ih₂ =>
    intro hr
    cases hr with
    | seql h =>
      obtain ⟨c, hc, hrc⟩ := ih₁ h
      exact ⟨c, List.mem_append_left _ hc, hrc⟩
    | seqr h =>
      obtain ⟨c, hc, hrc⟩ := ih₂ h
      exact ⟨c, List.mem_append_right _ hc, hrc⟩
  | altl hd ih =>
    intro hr
    cases hr with
    | alt ha hb => exact ih ha
  | altr hd ih =>
    intro hr
    cases hr with
    | alt ha hb => exact ih hb
  | repS hd₁ hd₂ ih₁ ih₂ =>
    intro hr
    cases hr with
    | rep h =>
      obtain ⟨c, hc, hrc⟩ := ih₁ h
      exact ⟨c, List.mem_append_left _ hc, hrc⟩
  | rep0 => intro hr; cases hr
  | repG hne hd₁ hd₂ ih₁ ih₂ => intro hr; cases hr

theorem clsOf_mem {n : Nat} {re : RE} {pw : Bool} {u : List Char} {nw : Bool}
    (hd : DMatch n re pw u nw) : ∀ c ∈ u, ClsOf re c = true := by
  induction hd with
  | eps => intro c hc; cases hc
  | wb hne => intro c hc; cases hc
  | cls hpc =>
    intro c hc
    rw [List.mem_singleton] at hc
    subst hc
    exact hpc
  | seq hd₁ hd₂ ih₁ ih₂ =>
    intro c hc
    show (ClsOf _ c || ClsOf _ c) = true
    rcases List.mem_append.mp hc with h | h
    · exact Bool.or_eq_true _ _ |>.mpr (Or.inl (ih₁ c h))
    · exact Bool.or_eq_true _ _ |>.mpr (Or.inr (ih₂ c h))
  | altl hd ih =>
    intro c hc
    show (ClsOf _ c || ClsOf _ c) = true
    exact Bool.or_eq_true _ _ |>.mpr (Or.inl (ih c hc))
  | altr hd ih =>
    intro c hc
    show (ClsOf _ c || ClsOf _ c) = true
    exact Bool.or_eq_true _ _ |>.mpr (Or.inr (ih c hc))
  | repS hd₁ hd₂ ih₁ ih₂ =>
    intro c hc
    rcases List.mem_append.mp hc with h | h
    · exact ih₁ c h
    · exact ih₂ c h
  | rep0 => intro c hc; cases hc
  | repG hne hd₁ hd₂ ih₁ ih₂ =>
    intro c hc
    rcases List.mem_append.mp hc with h | h
    · exact ih₁ c h
    · exact ih₂ c h
theorem reSubGo_zero (re : RE) (repl : List Char) (prev : Option Char)
    (s : List Char) : reSubGo re repl 0 prev s = s := rfl

theorem reSubGo_succ (re : RE) (repl : List Char) (n : Nat)
    (prev : Option Char) (s : List Char) :
    reSubGo re repl (n + 1) prev s =
      match reMatchAt re prev s with
      | some (p₁, rest) =>
        if rest.length = s.length then
          match s with
          | [] => []
          | c :: cs => c :: reSubGo re repl n (some c) cs
        else repl ++ reSubGo re repl n p₁ rest
      | none =>
        match s with
        | [] => []
        | c :: cs => c :: reSubGo re repl n (some c) cs := rfl

theorem reSearchGo_succ (re : RE) (n : Nat) (prev : Option Char)
    (s : List Char) :
    reSearchGo re (n + 1) prev s =
      match reMatchAt re prev s with
      | some _ => true
      | none =>
        match s with
        | [] => false
        | c :: cs => reSearchGo re n (some c) cs := rfl

/-- Any middle segment of `a ++ b` lies entirely in `b` (past a copy of
`a`), lies entirely inside `a`, or contains the last character of `a`. -/
theorem append_cases {a b u m v : List Char} (h : a ++ b = u ++ (m ++ v)) :
    (∃ w, u = a ++ w ∧ b = w ++ (m ++ v)) ∨
    (∀ c ∈ m, c ∈ a) ∨
    (∃ x, lastOpt a none = some x ∧ x ∈ m) := by
  rcases List.append_eq_append_iff.mp h with ⟨w, hw1, hw2⟩ | ⟨w, hw1, hw2⟩
  · exact Or.inl ⟨w, hw1, hw2⟩
  · rcases List.append_eq_append_iff.mp hw2 with ⟨w₂, hx1, hx2⟩ |
      ⟨w₂, hx1, hx2⟩
    · refine Or.inr (Or.inl ?_)
      intro c hc
      rw [hw1, hx1]
      exact List.mem_append_right _ (List.mem_append_left _ hc)
    · cases hw0 : w with
      | nil =>
        refine Or.inl ⟨[], ?_, ?_⟩
        · simp [hw1, hw0]
        · simp [hx2, hx1, hw0]
      | cons c' w' =>
        have hwne : w ≠ [] := by rw [hw0]; simp
        obtain ⟨x, hlx⟩ := lastOpt_exists w hwne
        refine Or.inr (Or.inr ⟨x, ?_, ?_⟩)
        · rw [hw1, lastOpt_append, lastOpt_ne_nil w hwne (lastOpt u none) none]
          exact hlx
        · rw [hx1]
          exact List.mem_append_left _ (lastOpt_mem w x hlx)

theorem noMatch_cons {P : RE} {pw : Bool} {c : Char} {s : List Char}
    (h : NoMatch P pw (c :: s)) : NoMatch P (isWordChar c) s := by
  intro u m v hv hD
  refine h (c :: u) m v (by rw [hv]; rfl) ?_
  rw [ctxLast_cons]
  exact hD

theorem noMatch_append_left {P : RE} {pw : Bool} {w t : List Char}
    (h : NoMatch P pw (w ++ t)) : NoMatch P (ctxLast w pw) t := by
  intro u m v hv hD
  refine h (w ++ u) m v (by rw [hv, List.append_assoc]) ?_
  rw [ctxLast_append]
  exact hD

/-- The first character of a substitution output is either the opening
bracket of the token or the first character of the input. -/
theorem reSubGo_head {Q : RE} {tok : List Char}
    (htokh : ∃ tt, tok = '[' :: tt) :
    ∀ (n : Nat) (prev : Option Char) (s : List Char) (c : Char)
      (out₀ : List Char), reSubGo Q tok n prev s = c :: out₀ →
      c = '[' ∨ ∃ cs, s = c :: cs := by
  intro n prev s c out₀ h
  cases n with
  | zero => exact Or.inr ⟨out₀, h⟩
  | succ n =>
    rw [reSubGo_succ] at h
    cases hm : reMatchAt Q prev s with
    | none =>
      rw [hm] at h
      cases s with
      | nil => exact List.noConfusion h
      | cons c' cs =>
        have h' : c' :: reSubGo Q tok n (some c') cs = c :: out₀ := h
        exact Or.inr ⟨cs, by rw [(List.cons.inj h').1]⟩
    | some pr =>
      obtain ⟨p₁, r₀⟩ := pr
      rw [hm] at h
      cases s with
      | nil =>
        have h' : (if r₀.length = ([] : List Char).length then ([] : List Char)
            else tok ++ reSubGo Q tok n p₁ r₀) = c :: out₀ := h
        by_cases hl : r₀.length = ([] : List Char).length
        · rw [if_pos hl] at h'
          exact List.noConfusion h'
        · rw [if_neg hl] at h'
          obtain ⟨tt, htt⟩ := htokh
          rw [htt] at h'
          exact Or.inl (List.cons.inj h').1.symm
      | cons c' cs =>
        have h' : (if r₀.length = (c' :: cs).length then
            c' :: reSubGo Q tok n (some c') cs
          else tok ++ reSubGo Q tok n p₁ r₀) = c :: out₀ := h
        by_cases hl : r₀.length = (c' :: cs).length
        · rw [if_pos hl] at h'
          exact Or.inr ⟨cs, by rw [(List.cons.inj h').1]⟩
        · rw [if_neg hl] at h'
          obtain ⟨tt, htt⟩ := htokh
          rw [htt] at h'
          exact Or.inl (List.cons.inj h').1.symm

/-- Transport of a bracket-free prefix of a substitution output back to the
input: the prefix is also an input prefix, and the word-status just after
it agrees, except possibly at the opening bracket of a token, where the
status of the pending input character is constrained by the leading word
boundary of the replaced match. -/
theorem subGo_front {Q : RE} {tok : List Char}
    (hsw : StartWB Q) (htokh : ∃ tt, tok = '[' :: tt) :
    ∀ (n : Nat) (prev : Option Char) (s m v : List Char),
      reSubGo Q tok n prev s = m ++ v →
      (∀ c ∈ m, c ≠ '[') →
      ∃ vin, s = m ++ vin ∧
        (ctxHead v false = ctxHead vin false ∨
         (ctxHead v false = false ∧
          wsOpt (lastOpt m prev) ≠ ctxHead vin false)) := by
  intro n
  induction n with
  | zero =>
    intro prev s m v h hbf
    exact ⟨v, h, Or.inl rfl⟩
  | succ n ih =>
    intro prev s m v h hbf
    rw [reSubGo_succ] at h
    cases hm : reMatchAt Q prev s with
    | none =>
      rw [hm] at h
      cases s with
      | nil =>
        obtain ⟨hm0, hv0⟩ := List.append_eq_nil.mp h.symm
        subst hm0
        subst hv0
        exact ⟨[], rfl, Or.inl rfl⟩
      | cons c cs =>
        have h' : c :: reSubGo Q tok n (some c) cs = m ++ v := h
        cases m with
        | nil =>
          refine ⟨c :: cs, rfl, Or.inl ?_⟩
          rw [List.nil_append] at h'
          rw [← h']
          rfl
        | cons c' m' =>
          obtain ⟨hc, hrest⟩ := List.cons.inj h'
          subst hc
          obtain ⟨vin, hvin, hd⟩ := ih (some c) cs m' v hrest
            (fun x hx => hbf x (List.mem_cons_of_mem c hx))
          exact ⟨vin, by rw [hvin]; rfl, hd⟩
    | some pr =>
      obtain ⟨p₁, r₀⟩ := pr
      rw [hm] at h
      by_cases hl : r₀.length = s.length
      · cases s with
        | nil =>
          have h₀ : ([] : List Char) = m ++ v := by
            have h' : (if r₀.length = ([] : List Char).length then
                ([] : List Char) else tok ++ reSubGo Q tok n p₁ r₀) =
                m ++ v := h
            rwa [if_pos hl] at h'
          obtain ⟨hm0, hv0⟩ := List.append_eq_nil.mp h₀.symm
          subst hm0
          subst hv0
          exact ⟨[], rfl, Or.inl rfl⟩
        | cons c cs =>
          have h' : c :: reSubGo Q tok n (some c) cs = m ++ v := by
            have h₀ : (if r₀.length = (c :: cs).length then
                c :: reSubGo Q tok n (some c) cs
              else tok ++ reSubGo Q tok n p₁ r₀) = m ++ v := h
            rwa [if_pos hl] at h₀
          cases m with
          | nil =>
            refine ⟨c :: cs, rfl, Or.inl ?_⟩
            rw [List.nil_append] at h'
            rw [← h']
            rfl
          | cons c' m' =>
            obtain ⟨hc, hrest⟩ := List.cons.inj h'
            subst hc
            obtain ⟨vin, hvin, hd⟩ := ih (some c) cs m' v hrest
              (fun x hx => hbf x (List.mem_cons_of_mem c hx))
            exact ⟨vin, by rw [hvin]; rfl, hd⟩
      · have h₀ : tok ++ reSubGo Q tok n p₁ r₀ = m ++ v := by
          cases s with
          | nil =>
            have h' : (if r₀.length = ([] : List Char).length then
                ([] : List Char) else tok ++ reSubGo Q tok n p₁ r₀) =
                m ++ v := h
            rwa [if_neg hl] at h'
          | cons c cs =>
            have h' : (if r₀.length = (c :: cs).length then
                c :: reSubGo Q tok n (some c) cs
              else tok ++ reSubGo Q tok n p₁ r₀) = m ++ v := h
            rwa [if_neg hl] at h'
        cases m with
        | nil =>
          refine ⟨s, rfl, Or.inr ⟨?_, ?_⟩⟩
          · obtain ⟨tt, htt⟩ := htokh
            rw [List.nil_append] at h₀
            rw [← h₀, htt]
            rfl
          · obtain ⟨w, rest, hs, hdw, hkw⟩ :=
              matchM_sound engineFuel Q prev s _ (p₁, r₀) hm
            have hr₀ : r₀ = rest :=
              (congrArg Prod.snd (Option.some.inj hkw)).symm
            have hwne : w ≠ [] := by
              intro hwnil
              rw [hwnil, List.nil_append] at hs
              exact hl (by rw [hr₀, hs])
            have hst := startWB_ctx hdw hsw
            show wsOpt prev ≠ ctxHead s false
            rw [hs, ctxHead_append]
            exact hst
        | cons c' m' =>
          obtain ⟨tt, htt⟩ := htokh
          rw [htt] at h₀
          exact absurd (List.cons.inj h₀).1.symm
            (hbf c' (List.mem_cons_self c' m'))

/-- A searcher over a string with no declarative match returns `false`. -/
theorem reSearchGo_false (P : RE) :
    ∀ (n : Nat) (prev : Option Char) (s : List Char),
      NoMatch P (wsOpt prev) s → reSearchGo P n prev s = false := by
  intro n
  induction n with
  | zero => intro prev s h; rfl
  | succ n ih =>
    intro prev s h
    rw [reSearchGo_succ]
    cases hm : reMatchAt P prev s with
    | some pr =>
      obtain ⟨u, rest, hs, hd, hk⟩ := matchM_sound engineFuel P prev s _ pr hm
      exact absurd hd (h [] u rest (by rw [hs]; rfl))
    | none =>
      cases s with
      | nil => rfl
      | cons c cs =>
        show reSearchGo P n (some c) cs = false
        exact ih (some c) cs (noMatch_cons h)
/-- Self-cleaning of one substitution pass: for a pattern bracketed by word
boundaries that requires a character absent from its token, the output of
`reSubGo` contains no match of the pattern in the output's own contexts. -/
theorem subGo_self {P : RE} {tok : List Char} {req : Char → Bool}
    (hsw : StartWB P) (hew : EndWB P) (hreq : ReqC P req)
    (hbrL : ClsOf P '[' = false) (hbrR : ClsOf P ']' = false)
    (htokh : ∃ tt, tok = '[' :: tt)
    (htokg : lastOpt tok none = some ']')
    (htokr : ∀ c ∈ tok, req c = false) :
    ∀ (n : Nat) (prev : Option Char) (s : List Char), s.length < n →
      NoMatch P (wsOpt prev) (reSubGo P tok n prev s) := by
  intro n
  induction n with
  | zero =>
    intro prev s hlen
    exact absurd hlen (Nat.not_lt_zero _)
  | succ n ih =>
    intro prev s hlen
    cases hm : reMatchAt P prev s with
    | none =>
      cases s with
      | nil =>
        have hout : reSubGo P tok (n + 1) prev [] = [] := by
          rw [reSubGo_succ, hm]
        rw [hout]
        intro u m v heq hD
        obtain ⟨hu, hmv⟩ := List.append_eq_nil.mp heq.symm
        obtain ⟨hm0, hv0⟩ := List.append_eq_nil.mp hmv
        subst hm0
        obtain ⟨c₀, hc₀, _⟩ := reqC_mem hD hreq
        cases hc₀
      | cons c cs =>
        have hout : reSubGo P tok (n + 1) prev (c :: cs) =
            c :: reSubGo P tok n (some c) cs := by
          rw [reSubGo_succ, hm]
        rw [hout]
        have hIH : NoMatch P (wsOpt (some c)) (reSubGo P tok n (some c) cs) :=
          ih (some c) cs (Nat.lt_of_succ_lt_succ hlen)
        intro u m v heq hD
        cases u with
        | cons u₀ u' =>
          obtain ⟨hcu, hrest⟩ := List.cons.inj heq
          subst hcu
          refine absurd ?_ (hIH u' m v hrest)
          rw [ctxLast_cons] at hD
          exact hD
        | nil =>
          rw [List.nil_append] at heq
          cases m with
          | nil =>
            obtain ⟨c₀, hc₀, _⟩ := reqC_mem hD hreq
            cases hc₀
          | cons m₀ m' =>
            obtain ⟨hcm, hout'⟩ := List.cons.inj heq
            subst hcm
            have hD0 : DMatch engineFuel P (wsOpt prev) (c :: m')
                (ctxHead v false) := hD
            have hbf : ∀ x ∈ (c :: m'), x ≠ '[' := by
              intro x hx hbad
              have hcl := clsOf_mem hD0 x hx
              rw [hbad, hbrL] at hcl
              exact Bool.noConfusion hcl
            obtain ⟨vin, hvin, hdisj⟩ := subGo_front hsw htokh n (some c)
              cs m' v hout'
              (fun x hx => hbf x (List.mem_cons_of_mem c hx))
            have hend := endWB_ctx hD0 hew
            have hnw : ctxHead vin false = ctxHead v false := by
              rcases hdisj with he | ⟨hvf, hne⟩
              · exact he.symm
              · have h1 : ctxLast (c :: m') (wsOpt prev) = true := by
                  cases hb : ctxLast (c :: m') (wsOpt prev) with
                  | true => rfl
                  | false => exact absurd (hb.trans hvf.symm) hend
                have h2 : ctxLast m' (isWordChar c) ≠ ctxHead vin false := by
                  have h2' := hne
                  rw [wsOpt_lastOpt] at h2'
                  exact h2'
                have h3 : ctxHead vin false = false := by
                  cases hb : ctxHead vin false with
                  | false => rfl
                  | true =>
                    rw [ctxLast_cons] at h1
                    exact absurd (h1.trans hb.symm) h2
                exact h3.trans hvf.symm
            rw [← hnw] at hD0
            have hcomp := matchM_complete hD0 prev vin
              (fun p r => some (p, r)) rfl rfl
              (by intro hco; exact Option.noConfusion hco)
            have hlist : (c :: m') ++ vin = c :: cs := by
              rw [hvin]
              rfl
            rw [hlist] at hcomp
            exact hcomp hm
    | some pr =>
      obtain ⟨p₁, r₀⟩ := pr
      obtain ⟨w, rest, hs, hdw, hkw⟩ :=
        matchM_sound engineFuel P prev s _ (p₁, r₀) hm
      have hp₁ : p₁ = lastOpt w prev :=
        (congrArg Prod.fst (Option.some.inj hkw)).symm
      have hr₀ : r₀ = rest :=
        (congrArg Prod.snd (Option.some.inj hkw)).symm
      by_cases hl : r₀.length = s.length
      · exfalso
        have hw0 : w = [] := by
          have h1 : w.length + rest.length = s.length := by
            rw [hs, List.length_append]
          have h2 : rest.length = s.length := by
            rw [← hr₀]
            exact hl
          have h3 : w.length = 0 := by omega
          exact List.eq_nil_of_length_eq_zero h3
        subst hw0
        obtain ⟨c₀, hc₀, _⟩ := reqC_mem hdw hreq
        cases hc₀
      · have hout : reSubGo P tok (n + 1) prev s =
            tok ++ reSubGo P tok n p₁ r₀ := by
          rw [reSubGo_succ, hm]
          exact if_neg hl
        rw [hout]
        have hwne : w ≠ [] := by
          intro hwnil
          exact hl (by rw [hr₀, hs, hwnil, List.nil_append])
        have hrlen : r₀.length < n := by
          have h1 : w.length + rest.length = s.length := by
            rw [hs, List.length_append]
          have h2 : 1 ≤ w.length := by
            cases hw : w with
            | nil => exact absurd hw hwne
            | cons y ys => simp [hw]
          have h3 : s.length < n + 1 := hlen
          rw [hr₀]
          omega
        have hIH : NoMatch P (wsOpt p₁) (reSubGo P tok n p₁ r₀) :=
          ih p₁ r₀ hrlen
        intro u m v heq hD
        rcases append_cases heq with ⟨w', hu, hb⟩ | hin | ⟨x, hx, hxm⟩
        · have hD' : DMatch engineFuel P (ctxLast w' false) m
              (ctxHead v false) := by
            have e1 : ctxLast u (wsOpt prev) = ctxLast w' false := by
              rw [hu, ctxLast_append, ctxLast_of_lastOpt tok ']' htokg,
                show isWordChar ']' = false from by decide]
            rw [e1] at hD
            exact hD
          by_cases hp : wsOpt p₁ = false
          · refine absurd ?_ (hIH w' m v hb)
            rw [hp]
            exact hD'
          · have hpt : wsOpt p₁ = true := by
              cases hb2 : wsOpt p₁ with
              | false => exact absurd hb2 hp
              | true => rfl
            cases w' with
            | cons y ys =>
              refine absurd ?_ (hIH (y :: ys) m v hb)
              rw [ctxLast_ne_nil (y :: ys) (by simp) (wsOpt p₁) false]
              exact hD'
            | nil =>
              have hD0 : DMatch engineFuel P false m (ctxHead v false) := hD'
              cases m with
              | nil =>
                obtain ⟨c₀, hc₀, _⟩ := reqC_mem hD0 hreq
                cases hc₀
              | cons m₀ m' =>
                have hmw : isWordChar m₀ = true := by
                  have hst := startWB_ctx hD0 hsw
                  cases hb2 : isWordChar m₀ with
                  | true => rfl
                  | false =>
                    refine absurd ?_ hst
                    show false = ctxHead (m₀ :: m') (ctxHead v false)
                    rw [show ctxHead (m₀ :: m') (ctxHead v false) =
                      isWordChar m₀ from rfl, hb2]
                rcases reSubGo_head htokh n p₁ r₀ m₀ (m' ++ v)
                    (by rw [hb]; rfl) with hbr | ⟨cs', hcs'⟩
                · have hcl := clsOf_mem hD0 m₀ (List.mem_cons_self _ _)
                  rw [hbr, hbrL] at hcl
                  exact Bool.noConfusion hcl
                · have hend := endWB_ctx hdw hew
                  have hlast : ctxLast w (wsOpt prev) = true := by
                    rw [← wsOpt_lastOpt, ← hp₁]
                    exact hpt
                  have hhead : ctxHead rest false = true := by
                    rw [← hr₀, hcs']
                    exact hmw
                  exact hend (hlast.trans hhead.symm)
        · obtain ⟨c₀, hc₀, hreqc⟩ := reqC_mem hD hreq
          have hf := htokr c₀ (hin c₀ hc₀)
          rw [hreqc] at hf
          exact Bool.noConfusion hf
        · have hx' : x = ']' := (Option.some.inj (htokg.symm.trans hx)).symm
          have hcl := clsOf_mem hD x hxm
          rw [hx', hbrR] at hcl
          exact Bool.noConfusion hcl
/-- Preservation across a later substitution pass: if the input has no
match of `P` (in the input's own contexts), a pass of pattern `Q` — both
patterns bracketed by word boundaries — leaves the output without any
match of `P`, provided `Q`'s token contains no character required by `P`. -/
theorem subGo_pres {P Q : RE} {tok : List Char} {req reqQ : Char → Bool}
    (hswP : StartWB P) (hewP : EndWB P) (hreqP : ReqC P req)
    (hbrL : ClsOf P '[' = false) (hbrR : ClsOf P ']' = false)
    (hswQ : StartWB Q) (hewQ : EndWB Q) (hreqQ : ReqC Q reqQ)
    (htokh : ∃ tt, tok = '[' :: tt)
    (htokg : lastOpt tok none = some ']')
    (htokr : ∀ c ∈ tok, req c = false) :
    ∀ (n : Nat) (prev : Option Char) (s : List Char), s.length < n →
      NoMatch P (wsOpt prev) s →
      NoMatch P (wsOpt prev) (reSubGo Q tok n prev s) := by
  intro n
  induction n with
  | zero =>
    intro prev s hlen hs0
    exact absurd hlen (Nat.not_lt_zero _)
  | succ n ih =>
    intro prev s hlen hs0
    cases hm : reMatchAt Q prev s with
    | none =>
      cases s with
      | nil =>
        have hout : reSubGo Q tok (n + 1) prev [] = [] := by
          rw [reSubGo_succ, hm]
        rw [hout]
        exact hs0
      | cons c cs =>
        have hout : reSubGo Q tok (n + 1) prev (c :: cs) =
            c :: reSubGo Q tok n (some c) cs := by
          rw [reSubGo_succ, hm]
        rw [hout]
        have hIH : NoMatch P (wsOpt (some c)) (reSubGo Q tok n (some c) cs) :=
          ih (some c) cs (Nat.lt_of_succ_lt_succ hlen) (noMatch_cons hs0)
        intro u m v heq hD
        cases u with
        | cons u₀ u' =>
          obtain ⟨hcu, hrest⟩ := List.cons.inj heq
          subst hcu
          refine absurd ?_ (hIH u' m v hrest)
          rw [ctxLast_cons] at hD
          exact hD
        | nil =>
          rw [List.nil_append] at heq
          cases m with
          | nil =>
            obtain ⟨c₀, hc₀, _⟩ := reqC_mem hD hreqP
            cases hc₀
          | cons m₀ m' =>
            obtain ⟨hcm, hout'⟩ := List.cons.inj heq
            subst hcm
            have hD0 : DMatch engineFuel P (wsOpt prev) (c :: m')
                (ctxHead v false) := hD
            have hbf : ∀ x ∈ (c :: m'), x ≠ '[' := by
              intro x hx hbad
              have hcl := clsOf_mem hD0 x hx
              rw [hbad, hbrL] at hcl
              exact Bool.noConfusion hcl
            obtain ⟨vin, hvin, hdisj⟩ := subGo_front hswQ htokh n (some c)
              cs m' v hout'
              (fun x hx => hbf x (List.mem_cons_of_mem c hx))
            have hend := endWB_ctx hD0 hewP
            have hnw : ctxHead vin false = ctxHead v false := by
              rcases hdisj with he | ⟨hvf, hne⟩
              · exact he.symm
              · have h1 : ctxLast (c :: m') (wsOpt prev) = true := by
                  cases hb : ctxLast (c :: m') (wsOpt prev) with
                  | true => rfl
                  | false => exact absurd (hb.trans hvf.symm) hend
                have h2 : ctxLast m' (isWordChar c) ≠ ctxHead vin false := by
                  have h2' := hne
                  rw [wsOpt_lastOpt] at h2'
                  exact h2'
                have h3 : ctxHead vin false = false := by
                  cases hb : ctxHead vin false with
                  | false => rfl
                  | true =>
                    rw [ctxLast_cons] at h1
                    exact absurd (h1.trans hb.symm) h2
                exact h3.trans hvf.symm
            rw [← hnw] at hD0
            refine hs0 [] (c :: m') vin ?_ hD0
            show c :: cs = [] ++ ((c :: m') ++ vin)
            rw [hvin]
            rfl
    | some pr =>
      obtain ⟨p₁, r₀⟩ := pr
      obtain ⟨w, rest, hs, hdw, hkw⟩ :=
        matchM_sound engineFuel Q prev s _ (p₁, r₀) hm
      have hp₁ : p₁ = lastOpt w prev :=
        (congrArg Prod.fst (Option.some.inj hkw)).symm
      have hr₀ : r₀ = rest :=
        (congrArg Prod.snd (Option.some.inj hkw)).symm
      by_cases hl : r₀.length = s.length
      · exfalso
        have hw0 : w = [] := by
          have h1 : w.length + rest.length = s.length := by
            rw [hs, List.length_append]
          have h2 : rest.length = s.length := by
            rw [← hr₀]
            exact hl
          have h3 : w.length = 0 := by omega
          exact List.eq_nil_of_length_eq_zero h3
        subst hw0
        obtain ⟨c₀, hc₀, _⟩ := reqC_mem hdw hreqQ
        cases hc₀
      · have hout : reSubGo Q tok (n + 1) prev s =
            tok ++ reSubGo Q tok n p₁ r₀ := by
          rw [reSubGo_succ, hm]
          exact if_neg hl
        rw [hout]
        have hwne : w ≠ [] := by
          intro hwnil
          exact hl (by rw [hr₀, hs, hwnil, List.nil_append])
        have hrlen : r₀.length < n := by
          have h1 : w.length + rest.length = s.length := by
            rw [hs, List.length_append]
          have h2 : 1 ≤ w.length := by
            cases hw : w with
            | nil => exact absurd hw hwne
            | cons y ys => simp [hw]
          have h3 : s.length < n + 1 := hlen
          rw [hr₀]
          omega
        have hsrest : NoMatch P (wsOpt p₁) r₀ := by
          have h1 : NoMatch P (ctxLast w (wsOpt prev)) rest :=
            noMatch_append_left (hs ▸ hs0)
          rw [hr₀, hp₁, wsOpt_lastOpt]
          exact h1
        have hIH : NoMatch P (wsOpt p₁) (reSubGo Q tok n p₁ r₀) :=
          ih p₁ r₀ hrlen hsrest
        intro u m v heq hD
        rcases append_cases heq with ⟨w', hu, hb⟩ | hin | ⟨x, hx, hxm⟩
        · have hD' : DMatch engineFuel P (ctxLast w' false) m
              (ctxHead v false) := by
            have e1 : ctxLast u (wsOpt prev) = ctxLast w' false := by
              rw [hu, ctxLast_append, ctxLast_of_lastOpt tok ']' htokg,
                show isWordChar ']' = false from by decide]
            rw [e1] at hD
            exact hD
          by_cases hp : wsOpt p₁ = false
          · refine absurd ?_ (hIH w' m v hb)
            rw [hp]
            exact hD'
          · have hpt : wsOpt p₁ = true := by
              cases hb2 : wsOpt p₁ with
              | false => exact absurd hb2 hp
              | true => rfl
            cases w' with
            | cons y ys =>
              refine absurd ?_ (hIH (y :: ys) m v hb)
              rw [ctxLast_ne_nil (y :: ys) (by simp) (wsOpt p₁) false]
              exact hD'
            | nil =>
              have hD0 : DMatch engineFuel P false m (ctxHead v false) := hD'
              cases m with
              | nil =>
                obtain ⟨c₀, hc₀, _⟩ := reqC_mem hD0 hreqP
                cases hc₀
              | cons m₀ m' =>
                have hmw : isWordChar m₀ = true := by
                  have hst := startWB_ctx hD0 hswP
                  cases hb2 : isWordChar m₀ with
                  | true => rfl
                  | false =>
                    refine absurd ?_ hst
                    show false = ctxHead (m₀ :: m') (ctxHead v false)
                    rw [show ctxHead (m₀ :: m') (ctxHead v false) =
                      isWordChar m₀ from rfl, hb2]
                rcases reSubGo_head htokh n p₁ r₀ m₀ (m' ++ v)
                    (by rw [hb]; rfl) with hbr | ⟨cs', hcs'⟩
                · have hcl := clsOf_mem hD0 m₀ (List.mem_cons_self _ _)
                  rw [hbr, hbrL] at hcl
                  exact Bool.noConfusion hcl
                · have hend := endWB_ctx hdw hewQ
                  have hlast : ctxLast w (wsOpt prev) = true := by
                    rw [← wsOpt_lastOpt, ← hp₁]
                    exact hpt
                  have hhead : ctxHead rest false = true := by
                    rw [← hr₀, hcs']
                    exact hmw
                  exact hend (hlast.trans hhead.symm)
        · obtain ⟨c₀, hc₀, hreqc⟩ := reqC_mem hD hreqP
          have hf := htokr c₀ (hin c₀ hc₀)
          rw [hreqc] at hf
          exact Bool.noConfusion hf
        · have hx' : x = ']' := (Option.some.inj (htokg.symm.trans hx)).symm
          have hcl := clsOf_mem hD x hxm
          rw [hx', hbrR] at hcl
          exact Bool.noConfusion hcl
theorem startWB_email : StartWB emailRE := StartWB.seql StartWB.wb

theorem startWB_phoneUs : StartWB phoneUsRE := StartWB.seql StartWB.wb

theorem startWB_phoneIntl : StartWB phoneIntlRE := StartWB.seql StartWB.wb

theorem startWB_ssn : StartWB ssnRE := StartWB.seql StartWB.wb

theorem startWB_card : StartWB cardRE := StartWB.seql StartWB.wb

theorem endWB_email : EndWB emailRE :=
  EndWB.seqr (EndWB.seqr (EndWB.seqr (EndWB.seqr (EndWB.seqr
    (EndWB.seqr (EndWB.seqe EndWB.wb))))))

theorem endWB_phoneUs : EndWB phoneUsRE :=
  EndWB.seqr (EndWB.seqr (EndWB.seqr (EndWB.seqr (EndWB.seqr
    (EndWB.seqr (EndWB.seqe EndWB.wb))))))

theorem endWB_phoneIntl : EndWB phoneIntlRE :=
  EndWB.seqr (EndWB.seqr (EndWB.seqr (EndWB.seqr (EndWB.seqr
    (EndWB.seqr (EndWB.seqr (EndWB.seqr (EndWB.seqr (EndWB.seqr
    (EndWB.seqr (EndWB.seqe EndWB.wb)))))))))))

theorem endWB_ssn : EndWB ssnRE :=
  EndWB.seqr (EndWB.seqr (EndWB.seqr (EndWB.seqr (EndWB.seqr
    (EndWB.seqr (EndWB.seqe EndWB.wb))))))

theorem endWB_card : EndWB cardRE :=
  EndWB.seqr (EndWB.seqr (EndWB.seqr (EndWB.seqr (EndWB.seqr
    (EndWB.seqr (EndWB.seqr (EndWB.seqr (EndWB.seqe EndWB.wb))))))))

theorem reqC_email : ReqC emailRE (fun c => c == '@') :=
  ReqC.seqr (ReqC.seqr (ReqC.seql (ReqC.cls (fun _ hc => hc))))

theorem reqC_phoneUs : ReqC phoneUsRE digitC :=
  ReqC.seqr (ReqC.seql (ReqC.rep (ReqC.cls (fun _ hc => hc))))

theorem reqC_phoneIntl : ReqC phoneIntlRE digitC :=
  ReqC.seqr (ReqC.seqr (ReqC.seql (ReqC.rep (ReqC.cls (fun _ hc => hc)))))

theorem reqC_ssn : ReqC ssnRE digitC :=
  ReqC.seqr (ReqC.seql (ReqC.rep (ReqC.cls (fun _ hc => hc))))

theorem reqC_card : ReqC cardRE digitC :=
  ReqC.seqr (ReqC.seql (ReqC.rep (ReqC.cls (fun _ hc => hc))))

/-- String-level self-cleaning of one `reSub` pass. -/
theorem reSub_self {P : RE} {req : Char → Bool} (tokS : String)
    (hsw : StartWB P) (hew : EndWB P) (hreq : ReqC P req)
    (hbrL : ClsOf P '[' = false) (hbrR : ClsOf P ']' = false)
    (htokh : ∃ tt, tokS.data = '[' :: tt)
    (htokg : lastOpt tokS.data none = some ']')
    (htokr : ∀ c ∈ tokS.data, req c = false) (s : String) :
    NoMatch P false (reSub P tokS s).data :=
  subGo_self hsw hew hreq hbrL hbrR htokh htokg htokr
    (s.data.length + 1) none s.data (Nat.lt_succ_self _)

/-- String-level preservation of `P`-freeness across a `Q` pass. -/
theorem reSub_pres {P Q : RE} {req reqQ : Char → Bool} (tokS : String)
    (hswP : StartWB P) (hewP : EndWB P) (hreqP : ReqC P req)
    (hbrL : ClsOf P '[' = false) (hbrR : ClsOf P ']' = false)
    (hswQ : StartWB Q) (hewQ : EndWB Q) (hreqQ : ReqC Q reqQ)
    (htokh : ∃ tt, tokS.data = '[' :: tt)
    (htokg : lastOpt tokS.data none = some ']')
    (htokr : ∀ c ∈ tokS.data, req c = false) (s : String)
    (hs : NoMatch P false s.data) :
    NoMatch P false (reSub Q tokS s).data :=
  subGo_pres hswP hewP hreqP hbrL hbrR hswQ hewQ hreqQ htokh htokg htokr
    (s.data.length + 1) none s.data (Nat.lt_succ_self _) hs

/-- `re.search`-level consequence of `NoMatch`. -/
theorem reSearch_of_noMatch {P : RE} {s : String}
    (h : NoMatch P false s.data) : reSearch P s = false :=
  reSearchGo_false P (s.data.length + 1) none s.data h
/-- The asset scrubber's output never contains a substring matching any of
its five patterns, for every input string: each pass removes its own
matches, later passes cannot recreate earlier patterns (their tokens hold
no digit and no `@`, and both token brackets are outside every class), and
the word boundaries bracketing every pattern block matches from straddling
a replacement site. -/
theorem scrub_text_clean (t : String) :
    reSearch emailRE (scrub_text t) = false ∧
    reSearch phoneUsRE (scrub_text t) = false ∧
    reSearch phoneIntlRE (scrub_text t) = false ∧
    reSearch ssnRE (scrub_text t) = false ∧
    reSearch cardRE (scrub_text t) = false := by
  by_cases ht : t = ""
  · subst ht
    exact ⟨by decide, by decide, by decide, by decide, by decide⟩
  · have hne : scrub_text t =
        reSub cardRE "[CARD_REDACTED]" (reSub ssnRE "[SSN_REDACTED]"
          (reSub phoneIntlRE "[PHONE_REDACTED]"
            (reSub phoneUsRE "[PHONE_REDACTED]"
              (reSub emailRE "[EMAIL_REDACTED]" t)))) := if_neg ht
    rw [hne]
    have hE1 : NoMatch emailRE false
        (reSub emailRE "[EMAIL_REDACTED]" t).data :=
      reSub_self "[EMAIL_REDACTED]" startWB_email endWB_email reqC_email
        (by decide) (by decide) ⟨"EMAIL_REDACTED]".data, by decide⟩
        (by decide) (by decide) t
    have hE2 : NoMatch emailRE false (reSub phoneUsRE "[PHONE_REDACTED]"
        (reSub emailRE "[EMAIL_REDACTED]" t)).data :=
      reSub_pres "[PHONE_REDACTED]" startWB_email endWB_email reqC_email
        (by decide) (by decide) startWB_phoneUs endWB_phoneUs reqC_phoneUs
        ⟨"PHONE_REDACTED]".data, by decide⟩ (by decide) (by decide)
        (reSub emailRE "[EMAIL_REDACTED]" t) hE1
    have hE3 : NoMatch emailRE false (reSub phoneIntlRE "[PHONE_REDACTED]"
        (reSub phoneUsRE "[PHONE_REDACTED]"
          (reSub emailRE "[EMAIL_REDACTED]" t))).data :=
      reSub_pres "[PHONE_REDACTED]" startWB_email endWB_email reqC_email
        (by decide) (by decide) startWB_phoneIntl endWB_phoneIntl
        reqC_phoneIntl ⟨"PHONE_REDACTED]".data, by decide⟩ (by decide)
        (by decide) (reSub phoneUsRE "[PHONE_REDACTED]"
          (reSub emailRE "[EMAIL_REDACTED]" t)) hE2
    have hE4 : NoMatch emailRE false (reSub ssnRE "[SSN_REDACTED]"
        (reSub phoneIntlRE "[PHONE_REDACTED]"
          (reSub phoneUsRE "[PHONE_REDACTED]"
            (reSub emailRE "[EMAIL_REDACTED]" t)))).data :=
      reSub_pres "[SSN_REDACTED]" startWB_email endWB_email reqC_email
        (by decide) (by decide) startWB_ssn endWB_ssn reqC_ssn
        ⟨"SSN_REDACTED]".data, by decide⟩ (by decide) (by decide)
        (reSub phoneIntlRE "[PHONE_REDACTED]"
          (reSub phoneUsRE "[PHONE_REDACTED]"
            (reSub emailRE "[EMAIL_REDACTED]" t))) hE3
    have hE5 : NoMatch emailRE false (reSub cardRE "[CARD_REDACTED]"
        (reSub ssnRE "[SSN_REDACTED]"
          (reSub phoneIntlRE "[PHONE_REDACTED]"
            (reSub phoneUsRE "[PHONE_REDACTED]"
              (reSub emailRE "[EMAIL_REDACTED]" t))))).data :=
      reSub_pres "[CARD_REDACTED]" startWB_email endWB_email reqC_email
        (by decide) (by decide) startWB_card endWB_card reqC_card
        ⟨"CARD_REDACTED]".data, by decide⟩ (by decide) (by decide)
        (reSub ssnRE "[SSN_REDACTED]"
          (reSub phoneIntlRE "[PHONE_REDACTED]"
            (reSub phoneUsRE "[PHONE_REDACTED]"
              (reSub emailRE "[EMAIL_REDACTED]" t)))) hE4
    have hU1 : NoMatch phoneUsRE false (reSub phoneUsRE "[PHONE_REDACTED]"
        (reSub emailRE "[EMAIL_REDACTED]" t)).data :=
      reSub_self "[PHONE_REDACTED]" startWB_phoneUs endWB_phoneUs
        reqC_phoneUs (by decide) (by decide)
        ⟨"PHONE_REDACTED]".data, by decide⟩ (by decide) (by decide)
        (reSub emailRE "[EMAIL_REDACTED]" t)
    have hU2 : NoMatch phoneUsRE false (reSub phoneIntlRE "[PHONE_REDACTED]"
        (reSub phoneUsRE "[PHONE_REDACTED]"
          (reSub emailRE "[EMAIL_REDACTED]" t))).data :=
      reSub_pres "[PHONE_REDACTED]" startWB_phoneUs endWB_phoneUs
        reqC_phoneUs (by decide) (by decide) startWB_phoneIntl
        endWB_phoneIntl reqC_phoneIntl ⟨"PHONE_REDACTED]".data, by decide⟩
        (by decide) (by decide) (reSub phoneUsRE "[PHONE_REDACTED]"
          (reSub emailRE "[EMAIL_REDACTED]" t)) hU1
    have hU3 : NoMatch phoneUsRE false (reSub ssnRE "[SSN_REDACTED]"
        (reSub phoneIntlRE "[PHONE_REDACTED]"
          (reSub phoneUsRE "[PHONE_REDACTED]"
            (reSub emailRE "[EMAIL_REDACTED]" t)))).data :=
      reSub_pres "[SSN_REDACTED]" startWB_phoneUs endWB_phoneUs reqC_phoneUs
        (by decide) (by decide) startWB_ssn endWB_ssn reqC_ssn
        ⟨"SSN_REDACTED]".data, by decide⟩ (by decide) (by decide)
        (reSub phoneIntlRE "[PHONE_REDACTED]"
          (reSub phoneUsRE "[PHONE_REDACTED]"
            (reSub emailRE "[EMAIL_REDACTED]" t))) hU2
    have hU4 : NoMatch phoneUsRE false (reSub cardRE "[CARD_REDACTED]"
        (reSub ssnRE "[SSN_REDACTED]"
          (reSub phoneIntlRE "[PHONE_REDACTED]"
            (reSub phoneUsRE "[PHONE_REDACTED]"
              (reSub emailRE "[EMAIL_REDACTED]" t))))).data :=
      reSub_pres "[CARD_REDACTED]" startWB_phoneUs endWB_phoneUs
        reqC_phoneUs (by decide) (by decide) startWB_card endWB_card
        reqC_card ⟨"CARD_REDACTED]".data, by decide⟩ (by decide) (by decide)
        (reSub ssnRE "[SSN_REDACTED]"
          (reSub phoneIntlRE "[PHONE_REDACTED]"
            (reSub phoneUsRE "[PHONE_REDACTED]"
              (reSub emailRE "[EMAIL_REDACTED]" t)))) hU3
    have hI1 : NoMatch phoneIntlRE false
        (reSub phoneIntlRE "[PHONE_REDACTED]"
          (reSub phoneUsRE "[PHONE_REDACTED]"
            (reSub emailRE "[EMAIL_REDACTED]" t))).data :=
      reSub_self "[PHONE_REDACTED]" startWB_phoneIntl endWB_phoneIntl
        reqC_phoneIntl (by decide) (by decide)
        ⟨"PHONE_REDACTED]".data, by decide⟩ (by decide) (by decide)
        (reSub phoneUsRE "[PHONE_REDACTED]"
          (reSub emailRE "[EMAIL_REDACTED]" t))
    have hI2 : NoMatch phoneIntlRE false (reSub ssnRE "[SSN_REDACTED]"
        (reSub phoneIntlRE "[PHONE_REDACTED]"
          (reSub phoneUsRE "[PHONE_REDACTED]"
            (reSub emailRE "[EMAIL_REDACTED]" t)))).data :=
      reSub_pres "[SSN_REDACTED]" startWB_phoneIntl endWB_phoneIntl
        reqC_phoneIntl (by decide) (by decide) startWB_ssn endWB_ssn
        reqC_ssn ⟨"SSN_REDACTED]".data, by decide⟩ (by decide) (by decide)
        (reSub phoneIntlRE "[PHONE_REDACTED]"
          (reSub phoneUsRE "[PHONE_REDACTED]"
            (reSub emailRE "[EMAIL_REDACTED]" t))) hI1
    have hI3 : NoMatch phoneIntlRE false (reSub cardRE "[CARD_REDACTED]"
        (reSub ssnRE "[SSN_REDACTED]"
          (reSub phoneIntlRE "[PHONE_REDACTED]"
            (reSub phoneUsRE "[PHONE_REDACTED]"
              (reSub emailRE "[EMAIL_REDACTED]" t))))).data :=
      reSub_pres "[CARD_REDACTED]" startWB_phoneIntl endWB_phoneIntl
        reqC_phoneIntl (by decide) (by decide) startWB_card endWB_card
        reqC_card ⟨"CARD_REDACTED]".data, by decide⟩ (by decide) (by decide)
        (reSub ssnRE "[SSN_REDACTED]"
          (reSub phoneIntlRE "[PHONE_REDACTED]"
            (reSub phoneUsRE "[PHONE_REDACTED]"
              (reSub emailRE "[EMAIL_REDACTED]" t)))) hI2
    have hS1 : NoMatch ssnRE false (reSub ssnRE "[SSN_REDACTED]"
        (reSub phoneIntlRE "[PHONE_REDACTED]"
          (reSub phoneUsRE "[PHONE_REDACTED]"
            (reSub emailRE "[EMAIL_REDACTED]" t)))).data :=
      reSub_self "[SSN_REDACTED]" startWB_ssn endWB_ssn reqC_ssn
        (by decide) (by decide) ⟨"SSN_REDACTED]".data, by decide⟩
        (by decide) (by decide)
        (reSub phoneIntlRE "[PHONE_REDACTED]"
          (reSub phoneUsRE "[PHONE_REDACTED]"
            (reSub emailRE "[EMAIL_REDACTED]" t)))
    have hS2 : NoMatch ssnRE false (reSub cardRE "[CARD_REDACTED]"
        (reSub ssnRE "[SSN_REDACTED]"
          (reSub phoneIntlRE "[PHONE_REDACTED]"
            (reSub phoneUsRE "[PHONE_REDACTED]"
              (reSub emailRE "[EMAIL_REDACTED]" t))))).data :=
      reSub_pres "[CARD_REDACTED]" startWB_ssn endWB_ssn reqC_ssn
        (by decide) (by decide) startWB_card endWB_card reqC_card
        ⟨"CARD_REDACTED]".data, by decide⟩ (by decide) (by decide)
        (reSub ssnRE "[SSN_REDACTED]"
          (reSub phoneIntlRE "[PHONE_REDACTED]"
            (reSub phoneUsRE "[PHONE_REDACTED]"
              (reSub emailRE "[EMAIL_REDACTED]" t)))) hS1
    have hC1 : NoMatch cardRE false (reSub cardRE "[CARD_REDACTED]"
        (reSub ssnRE "[SSN_REDACTED]"
          (reSub phoneIntlRE "[PHONE_REDACTED]"
            (reSub phoneUsRE "[PHONE_REDACTED]"
              (reSub emailRE "[EMAIL_REDACTED]" t))))).data :=
      reSub_self "[CARD_REDACTED]" startWB_card endWB_card reqC_card
        (by decide) (by decide) ⟨"CARD_REDACTED]".data, by decide⟩
        (by decide) (by decide)
        (reSub ssnRE "[SSN_REDACTED]"
          (reSub phoneIntlRE "[PHONE_REDACTED]"
            (reSub phoneUsRE "[PHONE_REDACTED]"
              (reSub emailRE "[EMAIL_REDACTED]" t))))
    exact ⟨reSearch_of_noMatch hE5, reSearch_of_noMatch hU4,
      reSearch_of_noMatch hI3, reSearch_of_noMatch hS2,
      reSearch_of_noMatch hC1⟩

/-- C6 counterexample: the offboard scrubber applies only the email, loose
phone and street-address patterns — no SSN and no card pattern — so the
offboard free text `000-00-0000` (which no phone pattern matches, as the
loose pattern requires a leading 1-9 digit) is returned unchanged and still
contains a substring matching the raw SSN pattern. -/
theorem scrub_residual_counterexample :
    scrub_pii_text "000-00-0000" = "000-00-0000" ∧
    reSearch ssnRE "000-00-0000" = true := by
  exact ⟨by decide, by decide⟩

/-- C6 amended: matched substrings of scrubbed free-text fields are
replaced with fixed placeholder tokens. Asset notes/descriptions apply the
patterns in order email, phone (two formats), SSN, card, and for every
input string the scrubbed output contains no substring matching any of the
five raw patterns (an SSN-shaped substring is consumed by the second phone
pattern, which precedes the SSN pattern). Offboard reasons/notes apply
only email, one loose phone format and a street-address pattern, so
scrubbed offboard text can retain substrings matching the raw SSN
pattern. -/
theorem scrub_replacement_amended :
    (∀ t : String,
      reSearch emailRE (scrub_text t) = false ∧
      reSearch phoneUsRE (scrub_text t) = false ∧
      reSearch phoneIntlRE (scrub_text t) = false ∧
      reSearch ssnRE (scrub_text t) = false ∧
      reSearch cardRE (scrub_text t) = false) ∧
    scrub_text "Contact john.doe@acme.com or 555-123-4567" =
      "Contact [EMAIL_REDACTED] or [PHONE_REDACTED]" ∧
    scrub_text "SSN 123-45-6789" = "SSN [PHONE_REDACTED]" ∧
    scrub_text "4111-1111-1111-1111" = "[PHONE_REDACTED]-[PHONE_REDACTED]" ∧
    scrub_pii_text "Call 555-123-4567 now" = "Call [PHONE_REDACTED] now" ∧
    scrub_pii_text "mail a@b.co now" = "mail [EMAIL_REDACTED] now" ∧
    scrub_pii_text "ship to 12 Main Street today" =
      "ship to [ADDRESS_REDACTED] today" := by
  exact ⟨scrub_text_clean, by decide, by decide, by decide, by decide,
    by decide, by decide⟩

end Sync

